import Mathlib

/-! The message identifier generator `msgidgen`.

A shallow embedding of `main.go`: the FNV-1 based identifier assignment
(`hashStringToInt64`), the name normalisation (`extractWordsAndToUpper`), the
line scan of `main` and the accumulation of the enumeration and tag texts.

Go strings are byte sequences. They are embedded as lists of natural numbers,
each standing for one byte. Unsigned 32-bit arithmetic is embedded on `Nat`
with an explicit reduction modulo `2 ^ 32`.
-/

namespace Msgidgen

/-! ## Strings -/

/-- A Go string: its bytes in order. -/
abbrev GoString := List Nat

/-- The bytes of an ASCII string literal of the source. -/
def lit (s : String) : GoString := s.toList.map Char.toNat

/-! ## `hash/fnv`: the 32-bit FNV-1 hash -/

/-- The constant `offset32` of `hash/fnv`. -/
def offset32 : Nat := 2166136261

/-- The constant `prime32` of `hash/fnv`. -/
def prime32 : Nat := 16777619

/-- One step of `(*sum32).Write`: `hash *= prime32; hash ^= uint32(c)` on `uint32`.
The byte `c` is read modulo 256. -/
def fnvStep (hash c : Nat) : Nat := Nat.xor (hash * prime32 % 2 ^ 32) (c % 256)

/-- The value of `h.Sum32()` after `h := fnv.New32(); h.Write([]byte(str))`. -/
def sum32 (str : GoString) : Nat := str.foldl fnvStep offset32

/-- The constant `math.MaxInt32`. -/
def maxInt32 : Nat := 2147483647

/-- The function `hashStringToInt64` of `main.go`:
`int64(hashValue%math.MaxInt32 - 1)`. The operand `hashValue` is a `uint32`, so the
remainder and the subtraction are `uint32` operations (the subtraction wraps modulo
`2 ^ 32`), and the conversion to `int64` keeps the unsigned value. -/
def hashStringToInt64 (str : GoString) : Int :=
  Int.ofNat ((sum32 str % maxInt32 + (2 ^ 32 - 1)) % 2 ^ 32)

/-! ## `regexp`: the pattern `\b\w+\b` -/

/-- The class `\w` of Go's `regexp` (RE2 syntax): an ASCII letter, digit or underscore.
Bytes of multi-byte runes are at least 128 and are not word characters. -/
def isWordByte (c : Nat) : Bool :=
  (48 ≤ c && c ≤ 57) || (65 ≤ c && c ≤ 90) || c == 95 || (97 ≤ c && c ≤ 122)

/-- Whether the position next to `c` counts as a word character for `\b`; the start
and the end of the text (`none`) do not. -/
def isWordSide : Option Nat → Bool
  | none => false
  | some c => isWordByte c

/-- The assertion `\b` at a position with `prev` before it and `next` after it: an
ASCII word boundary, a word character on exactly one side. -/
def wordBoundary (prev next : Option Nat) : Bool :=
  isWordSide prev != isWordSide next

/-- The remainder `\w*\b` of the pattern after a first word byte `last` was consumed.
The repetition is greedy: a longer match is tried first, and the match ends before `c`
only when no longer one exists and `\b` holds there. The result is the bytes consumed
and the rest of the text. -/
def matchTail (last : Nat) : List Nat → Option (GoString × List Nat)
  | [] => if wordBoundary (some last) none then some ([], []) else none
  | c :: rest =>
    if isWordByte c then
      match matchTail c rest with
      | some (w, r) => some (c :: w, r)
      | none => if wordBoundary (some last) (some c) then some ([], c :: rest) else none
    else if wordBoundary (some last) (some c) then some ([], c :: rest) else none

/-- A match of `\b\w+\b` starting exactly at the head of the text, `prev` being the
byte before it: the matched word and the rest of the text. -/
def matchAt (prev : Option Nat) : List Nat → Option (GoString × List Nat)
  | [] => none
  | c :: rest =>
    if wordBoundary prev (some c) && isWordByte c then
      match matchTail c rest with
      | some (w, r) => some (c :: w, r)
      | none => none
    else none

/-- The scan of `FindAllString`: a match is tried at every position from left to right;
after a match of a word `w` the search resumes at its end, so the `skip` positions inside
`w` are passed over. `prev` is the byte before the current position. -/
def findAllFrom (prev : Option Nat) (skip : Nat) : List Nat → List GoString
  | [] => []
  | c :: rest =>
    match skip with
    | k + 1 => findAllFrom (some c) k rest
    | 0 =>
      match matchAt prev (c :: rest) with
      | some (w, _) => w :: findAllFrom (some c) (w.length - 1) rest
      | none => findAllFrom (some c) 0 rest

/-- The call `regex.FindAllString(input, -1)` for ``regex = `\b\w+\b` ``: all
successive non-overlapping matches. -/
def FindAllString (input : GoString) : List GoString := findAllFrom none 0 input

/-! ## `strings` -/

/-- The ASCII case of `unicode.ToUpper`: `a`..`z` go to `A`..`Z`. -/
def toUpperByte (c : Nat) : Nat := if 97 ≤ c ∧ c ≤ 122 then c - 32 else c

/-- The function `strings.ToUpper` on an ASCII string (the only strings `main.go`
passes to it are words matched by `\w+`). -/
def ToUpper (s : GoString) : GoString := s.map toUpperByte

/-- The function `strings.Split(s, sep)` for a separator `sep` of one byte: the
substrings between the separators, `[s]` when `s` has none. -/
def Split (sep : Nat) : GoString → List GoString
  | [] => [[]]
  | c :: rest =>
    if c = sep then [] :: Split sep rest
    else
      match Split sep rest with
      | [] => [[c]]
      | w :: ws => (c :: w) :: ws

/-- The function `strings.HasSuffix`. -/
def HasSuffix (s suffix : GoString) : Bool := suffix.isSuffixOf s

/-- The function `strings.HasPrefix`. -/
def HasPrefix (s pre : GoString) : Bool := pre.isPrefixOf s

/-! ## `main.go` -/

/-- The command-line flags `-upper` and `-prefix` read by the scan. -/
structure Flags where
  upper : Bool
  pfx : GoString
  deriving DecidableEq, Repr

/-- The function `extractWordsAndToUpper` of `main.go`, `upper` being the flag `*upper`:
the words found by `\b\w+\b` are upper-cased when the flag is set and appended to
`result` in order. -/
def extractWordsAndToUpper (upper : Bool) (input : GoString) : GoString :=
  (FindAllString input).foldl
    (fun result word => result ++ (if upper then ToUpper word else word)) []

/-- The glob `*Req` of `main`: matches the strings ending in `Req`. -/
def req (s : GoString) : Bool := HasSuffix s (lit "Req")

/-- The glob `*Rsp` of `main`. -/
def rsp (s : GoString) : Bool := HasSuffix s (lit "Rsp")

/-- The glob `*Ntf` of `main`. -/
def ntf (s : GoString) : Bool := HasSuffix s (lit "Ntf")

/-- The glob `tag:*` of `main`: matches the strings beginning with `tag:`. -/
def tag (s : GoString) : Bool := HasPrefix s (lit "tag:")

/-- The loop over `strData` that sets `tagStr`: the first token matching `tag:*`,
the empty string when there is none. -/
def findTagStr : List GoString → GoString
  | [] => []
  | str :: strs => if tag str then str else findTagStr strs

/-- The dispatch tag of a line with tokens `strData`: `strings.Split(tagStr, ":")[1]`
when `tagStr != ""`, and none when `tagStr` is empty. -/
def valOf (strData : List GoString) : Option GoString :=
  if findTagStr strData ≠ [] then (Split 58 (findTagStr strData))[1]? else none

/-- What one scanned line does. -/
inductive Outcome where
  /-- An index expression is out of range: the program panics. -/
  | panic
  /-- The line adds nothing (`continue`, or the condition of the `if` is false). -/
  | skipped
  /-- The line is a qualifying declaration: the emitted name `body`, the identifier
  `numStr`, and the dispatch tag `val` when `tagStr != ""`. -/
  | entry (body : GoString) (numStr : Int) (val : Option GoString)
  deriving DecidableEq, Repr

/-- The body of the `for scanner.Scan()` loop of `main` up to the values it formats,
for the line `text = scanner.Text()`. An index out of range is `Outcome.panic`. -/
def scanLine (fl : Flags) (text : GoString) : Outcome :=
  let strData := Split 32 text
  if strData.length < 2 then Outcome.skipped
  else
    match strData[0]?, strData[1]? with
    | some head, some body =>
      let tagStr := findTagStr strData
      if head = lit "message" && (req body || rsp body || ntf body) then
        let body := fl.pfx ++ extractWordsAndToUpper fl.upper body
        let numStr := hashStringToInt64 body
        if tagStr ≠ [] then
          match (Split 58 tagStr)[1]? with
          | some val => Outcome.entry body numStr (some val)
          | none => Outcome.panic
        else Outcome.entry body numStr none
      else Outcome.skipped
    | _, _ => Outcome.panic

/-- The decimal digits of a natural number. -/
def digits (n : Nat) : GoString := (Nat.toDigits 10 n).map Char.toNat

/-- The verb `%v` of `fmt.Sprintf` on an `int64`: decimal, with a minus sign when negative. -/
def formatInt : Int → GoString
  | Int.ofNat n => digits n
  | Int.negSucc n => 45 :: digits (n + 1)

/-- The text a line appends to `content`. -/
def contentOf : Outcome → GoString
  | Outcome.entry body numStr none =>
    lit "    " ++ body ++ lit " = " ++ formatInt numStr ++ lit ";" ++ lit "\n"
  | Outcome.entry body numStr (some val) =>
    lit "    " ++ body ++ lit " = " ++ formatInt numStr ++ lit ";"
      ++ (lit "// dispatch to " ++ val) ++ lit "\n"
  | _ => []

/-- The text a line appends to `tagMap`. -/
def tagMapOf : Outcome → GoString
  | Outcome.entry _ numStr (some val) =>
    lit "    " ++ formatInt numStr ++ lit " : \"" ++ val ++ lit "\",\n"
  | _ => []

/-- The loop body of `for scanner.Scan()`: the line `text` is appended to the
accumulators `content` and `tagMap`; `none` is a panic. -/
def scanStep (fl : Flags) (acc : GoString × GoString) (text : GoString) :
    Option (GoString × GoString) :=
  match scanLine fl text with
  | Outcome.panic => none
  | o => some (acc.1 ++ contentOf o, acc.2 ++ tagMapOf o)

/-- The loop `for scanner.Scan()` over the lines of one file, in order. -/
def scanFile (fl : Flags) : List GoString → GoString × GoString → Option (GoString × GoString)
  | [], acc => some acc
  | text :: texts, acc =>
    match scanStep fl acc text with
    | none => none
    | some acc1 => scanFile fl texts acc1

/-- The constant `msgIDFile`. -/
def msgIDFile : GoString := lit "msgid.proto"

/-- The constant `msgTagFile`. -/
def msgTagFile : GoString := lit "msgtag.go"

/-- The loop of `filepath.Ext` running from the end of the path: `before` is the part
not yet read, last byte first, and `acc` the part already passed. -/
def extLoop : List Nat → GoString → GoString
  | [], _ => []
  | c :: before, acc =>
    if c = 47 then []
    else if c = 46 then c :: acc
    else extLoop before (c :: acc)

/-- The function `filepath.Ext`: the suffix beginning at the final dot of the final
element of the path, empty when there is no dot. -/
def Ext (path : GoString) : GoString := extLoop path.reverse []

/-- One call of the function passed to `filepath.WalkDir`. -/
structure Visit where
  /-- The value of `d.Name()`. -/
  name : GoString
  /-- Whether the argument `err` is non-nil. -/
  err : Bool
  /-- Whether `os.Open(path)` fails. -/
  openErr : Bool
  /-- The lines `scanner.Text()` yields for the file, in order. -/
  lines : List GoString
  deriving DecidableEq, Repr

/-- How the walk ends. -/
inductive Walk where
  /-- The process exits through `log.Fatalf`. -/
  | fatal
  /-- An index out of range. -/
  | panic
  /-- The walk is complete with these values of `content` and `tagMap`. -/
  | done (content tagMap : GoString)
  deriving DecidableEq, Repr

/-- Whether the callback reaches the scanning loop for a visited entry: the name is not
`msgIDFile`, the extension is `.proto` and the file opens. -/
def isScanned (v : Visit) : Bool :=
  !(v.name == msgIDFile) && !(Ext v.name != lit ".proto") && !v.openErr

/-- The call `filepath.WalkDir(*protoPath, ...)` over the entries it visits, in order,
from the accumulators `acc = (content, tagMap)`. A non-nil `err` is fatal. The entry
named `msgIDFile` and the entries whose extension is not `.proto` return `nil` at once.
When `os.Open` fails the callback returns `err`, which is `nil` at that point, so the
walk goes on with the next entry. -/
def walkDir (fl : Flags) : List Visit → GoString × GoString → Walk
  | [], acc => Walk.done acc.1 acc.2
  | v :: vs, acc =>
    if v.err then Walk.fatal
    else if v.name = msgIDFile then walkDir fl vs acc
    else if Ext v.name ≠ lit ".proto" then walkDir fl vs acc
    else if v.openErr then walkDir fl vs acc
    else
      match scanFile fl v.lines acc with
      | none => Walk.panic
      | some acc1 => walkDir fl vs acc1

/-- The scanning loops of the files the walk reaches, one file after the other, each
given by its lines. -/
def scanFiles (fl : Flags) : List (List GoString) → GoString × GoString → Walk
  | [], acc => Walk.done acc.1 acc.2
  | texts :: files, acc =>
    match scanFile fl texts acc with
    | none => Walk.panic
    | some acc1 => scanFiles fl files acc1

/-- The string `firstMsgID` of `main`. -/
def firstMsgID (fl : Flags) : GoString :=
  extractWordsAndToUpper fl.upper (lit "    " ++ fl.pfx ++ lit "Unknown") ++ lit " = 0;\n"

/-- What a complete run hands to the templates. -/
structure Output where
  /-- The field `Content` of the `MsgID` given to the template `msgIDTpl`. -/
  Content : GoString
  /-- The field `Tags` of the `MsgTag` given to the template `msgIDTagTpl`; `none` when
  `tagMap` is empty and `msgtag.go` is not written. -/
  Tags : Option GoString
  deriving DecidableEq, Repr

/-- How a run of `main` ends. -/
inductive Run where
  /-- The process exits through `log.Fatalf`. -/
  | fatal
  /-- An index out of range. -/
  | panic
  /-- Both templates were executed on `out`. -/
  | ok (out : Output)
  deriving DecidableEq, Repr

/-- The function `main`, for the flag `*packageName`, the flags `fl` and the entries
`vs` visited by the walk. -/
def main (packageName : GoString) (fl : Flags) (vs : List Visit) : Run :=
  if packageName = [] then Run.fatal
  else
    match walkDir fl vs ([], []) with
    | Walk.fatal => Run.fatal
    | Walk.panic => Run.panic
    | Walk.done content tagMap =>
      Run.ok
        { Content := firstMsgID fl ++ content
          Tags := if tagMap ≠ [] then some tagMap else none }

/-- The lines the walk feeds to the scanning loop, in visit order and, within a file, in
line order. -/
def scannedLines (vs : List Visit) : List GoString :=
  ((vs.filter isScanned).map Visit.lines).flatten

/-- Whether a line is a qualifying declaration. -/
def Outcome.isEntry : Outcome → Bool
  | Outcome.entry _ _ _ => true
  | _ => false

/-- Whether a line is a qualifying declaration with a dispatch tag. -/
def Outcome.hasTag : Outcome → Bool
  | Outcome.entry _ _ (some _) => true
  | _ => false

/-! ## Facts about the hash -/

theorem fnvStep_lt (hash c : Nat) : fnvStep hash c < 2 ^ 32 := by
  unfold fnvStep
  apply Nat.xor_lt_two_pow
  · exact Nat.mod_lt _ (by decide)
  · exact lt_of_lt_of_le (Nat.mod_lt _ (by decide)) (by decide)

theorem foldl_fnvStep_lt (str : GoString) (h : Nat) (hh : h < 2 ^ 32) :
    str.foldl fnvStep h < 2 ^ 32 := by
  induction str generalizing h with
  | nil => simpa using hh
  | cons c rest ih => exact ih _ (fnvStep_lt h c)

theorem sum32_lt (str : GoString) : sum32 str < 2 ^ 32 :=
  foldl_fnvStep_lt str offset32 (by decide)

/-- Away from the multiples of `math.MaxInt32` the identifier is the remainder less one. -/
theorem hashStringToInt64_of_rem_ne_zero (str : GoString)
    (h : sum32 str % maxInt32 ≠ 0) :
    hashStringToInt64 str = ((sum32 str % maxInt32 : Nat) : Int) - 1 := by
  have hlt : sum32 str % maxInt32 < maxInt32 := Nat.mod_lt _ (by decide)
  unfold hashStringToInt64
  simp only [maxInt32] at *
  have : (sum32 str % 2147483647 + (2 ^ 32 - 1)) % 2 ^ 32 = sum32 str % 2147483647 - 1 := by
    omega
  rw [this]
  simp only [Int.ofNat_eq_coe]
  omega

/-- At a multiple of `math.MaxInt32` the `uint32` subtraction wraps. -/
theorem hashStringToInt64_of_rem_eq_zero (str : GoString)
    (h : sum32 str % maxInt32 = 0) : hashStringToInt64 str = 4294967295 := by
  unfold hashStringToInt64
  rw [h]
  decide

/-! ## Facts about the word scan -/

theorem wordBoundary_of_word {last : Nat} (h : isWordByte last = true) (next : Option Nat) :
    wordBoundary (some last) next = !isWordSide next := by
  simp [wordBoundary, isWordSide, h]

/-- After a word byte the greedy repetition takes the whole run of word bytes. -/
theorem matchTail_eq {last : Nat} (h : isWordByte last = true) (l : List Nat) :
    matchTail last l = some (l.takeWhile isWordByte, l.dropWhile isWordByte) := by
  induction l generalizing last with
  | nil => simp [matchTail, wordBoundary_of_word h, isWordSide]
  | cons c rest ih =>
    by_cases hc : isWordByte c = true
    · simp [matchTail, hc, ih hc]
    · simp [matchTail, hc, wordBoundary_of_word h, isWordSide]

/-- A match starts at a word byte that follows a non-word position, and is the whole
run of word bytes there. -/
theorem matchAt_cons (prev : Option Nat) (c : Nat) (rest : List Nat) :
    matchAt prev (c :: rest) =
      if isWordByte c = true ∧ isWordSide prev = false then
        some (c :: rest.takeWhile isWordByte, rest.dropWhile isWordByte)
      else none := by
  by_cases hc : isWordByte c = true
  · by_cases hp : isWordSide prev = true
    · have hs : isWordSide (some c) = true := hc
      simp [matchAt, wordBoundary, hc, hp, hs]
    · have hs : isWordSide (some c) = true := hc
      simp [matchAt, wordBoundary, hc, hp, hs, matchTail_eq hc]
  · simp [matchAt, hc]

theorem filter_takeWhile_dropWhile (p : Nat → Bool) (l : List Nat) :
    l.filter p = l.takeWhile p ++ (l.dropWhile p).filter p := by
  induction l with
  | nil => simp
  | cons c rest ih =>
    by_cases hc : p c = true
    · simp [List.takeWhile, List.dropWhile, List.filter, hc, ih]
    · simp [List.takeWhile, List.dropWhile, List.filter, hc]

theorem drop_length_takeWhile (p : Nat → Bool) (l : List Nat) :
    l.drop (l.takeWhile p).length = l.dropWhile p := by
  induction l with
  | nil => simp
  | cons c rest ih =>
    by_cases hc : p c = true
    · simp [List.takeWhile, List.dropWhile, hc, ih]
    · simp [List.takeWhile, List.dropWhile, hc]

/-- The words found from a position, upper-cased or not by `u` and appended to `init`,
are the word bytes of the text from the end of the current match on. Inside or right
after a word, `skip` is the number of bytes of that word still ahead. -/
theorem foldl_findAllFrom (u : Nat → Nat) (l : List Nat) :
    ∀ (prev : Option Nat) (skip : Nat) (init : GoString),
      (isWordSide prev = true ∨ 0 < skip → skip = (l.takeWhile isWordByte).length) →
      (findAllFrom prev skip l).foldl (fun result word => result ++ word.map u) init =
        init ++ ((l.drop skip).filter isWordByte).map u := by
  induction l with
  | nil => intro prev skip init _; simp [findAllFrom]
  | cons c rest ih =>
    intro prev skip init hinv
    cases skip with
    | succ k =>
      have hk := hinv (Or.inr (Nat.succ_pos k))
      by_cases hc : isWordByte c = true
      · simp only [List.takeWhile, hc, List.length_cons] at hk
        simp only [findAllFrom, List.drop_succ_cons]
        exact ih (some c) k init (fun _ => by omega)
      · simp [List.takeWhile, hc] at hk
    | zero =>
      by_cases hp : isWordSide prev = true
      · have h0 := hinv (Or.inl hp)
        have hc : isWordByte c = false := by
          by_cases hc : isWordByte c = true
          · simp [List.takeWhile, hc] at h0
          · simpa using hc
        have h1 := ih (some c) 0 init (by simp [isWordSide, hc])
        simpa [findAllFrom, matchAt_cons, hc, hp, List.filter] using h1
      · have hp' : isWordSide prev = false := by simpa using hp
        by_cases hc : isWordByte c = true
        · simp only [findAllFrom, matchAt_cons, hc, hp', and_self, if_true, List.foldl_cons,
            List.length_cons, Nat.add_sub_cancel]
          rw [ih (some c) _ _ (fun _ => rfl), drop_length_takeWhile]
          simp only [List.drop_zero, List.filter, hc]
          rw [filter_takeWhile_dropWhile isWordByte rest]
          simp
        · have hc' : isWordByte c = false := by simpa using hc
          have h1 := ih (some c) 0 init (by simp [isWordSide, hc'])
          simpa [findAllFrom, matchAt_cons, hc', List.filter] using h1

/-- The function `extractWordsAndToUpper` keeps exactly the word bytes, in order, and
upper-cases them when the flag is set. -/
theorem extractWordsAndToUpper_eq (upper : Bool) (input : GoString) :
    extractWordsAndToUpper upper input =
      (input.filter isWordByte).map (fun c => if upper then toUpperByte c else c) := by
  unfold extractWordsAndToUpper FindAllString
  have h := foldl_findAllFrom (fun c => if upper then toUpperByte c else c) input none 0 []
    (by simp [isWordSide])
  simp only [List.drop_zero, List.nil_append] at h
  rw [← h]
  congr 1
  funext result word
  cases upper <;> simp [ToUpper]

/-! ## Facts about `Split` and the globs -/

theorem Split_ne_nil (sep : Nat) (s : GoString) : Split sep s ≠ [] := by
  induction s with
  | nil => simp [Split]
  | cons c rest ih =>
    unfold Split
    split
    · simp
    · split <;> simp

/-- A string without the separator is not cut. -/
theorem Split_of_not_mem (sep : Nat) (s : GoString) (h : sep ∉ s) : Split sep s = [s] := by
  induction s with
  | nil => simp [Split]
  | cons c rest ih =>
    simp only [List.mem_cons, not_or] at h
    have hc : ¬ c = sep := fun e => h.1 e.symm
    simp [Split, hc, ih h.2]

/-- The first piece ends at the first separator. -/
theorem Split_append_sep (sep : Nat) (a b : GoString) (h : sep ∉ a) :
    Split sep (a ++ sep :: b) = a :: Split sep b := by
  induction a with
  | nil => simp [Split]
  | cons c rest ih =>
    simp only [List.mem_cons, not_or] at h
    have hc : ¬ c = sep := fun e => h.1 e.symm
    simp [Split, hc, ih h.2]

theorem tag_iff (s : GoString) : tag s = true ↔ lit "tag:" <+: s := by
  simp [tag, HasPrefix, List.isPrefixOf_iff_prefix]

theorem req_iff (s : GoString) : req s = true ↔ lit "Req" <:+ s := by
  simp [req, HasSuffix, List.isSuffixOf_iff_suffix]

theorem rsp_iff (s : GoString) : rsp s = true ↔ lit "Rsp" <:+ s := by
  simp [rsp, HasSuffix, List.isSuffixOf_iff_suffix]

theorem ntf_iff (s : GoString) : ntf s = true ↔ lit "Ntf" <:+ s := by
  simp [ntf, HasSuffix, List.isSuffixOf_iff_suffix]

/-- A token matching `tag:*` is cut at its colons into `tag`, then the pieces of the rest. -/
theorem Split_colon_of_tag (x : GoString) :
    Split 58 (lit "tag:" ++ x) = lit "tag" :: Split 58 x := by
  have h : lit "tag:" ++ x = lit "tag" ++ 58 :: x := by
    simp [lit]
  rw [h]
  exact Split_append_sep 58 (lit "tag") x (by decide)

/-- The index expression `strings.Split(tagStr, ":")[1]` is in range for a token matching
`tag:*`. -/
theorem Split_colon_index_of_tag (s : GoString) (h : tag s = true) :
    ∃ val, (Split 58 s)[1]? = some val := by
  obtain ⟨x, rfl⟩ := (tag_iff s).1 h
  rw [Split_colon_of_tag]
  cases hx : Split 58 x with
  | nil => exact absurd hx (Split_ne_nil 58 x)
  | cons w ws => exact ⟨w, by simp⟩

/-- The value read from a tag token: the part after the first colon, up to the next
colon when there is one. -/
theorem Split_colon_index_eq (v rest : GoString) (hv : 58 ∉ v)
    (hrest : rest = [] ∨ ∃ r, rest = 58 :: r) :
    (Split 58 (lit "tag:" ++ v ++ rest))[1]? = some v := by
  rw [List.append_assoc, Split_colon_of_tag]
  rcases hrest with rfl | ⟨r, rfl⟩
  · simp [Split_of_not_mem 58 v hv]
  · simp [Split_append_sep 58 v r hv]

theorem findTagStr_nil_or_tag (strData : List GoString) :
    findTagStr strData = [] ∨ tag (findTagStr strData) = true := by
  induction strData with
  | nil => simp [findTagStr]
  | cons str strs ih =>
    by_cases h : tag str = true
    · simp [findTagStr, h]
    · simpa [findTagStr, h] using ih

/-- The loop picks the first token matching `tag:*`. -/
theorem findTagStr_append (before after : List GoString) (t : GoString)
    (hb : ∀ x ∈ before, tag x = false) (ht : tag t = true) :
    findTagStr (before ++ t :: after) = t := by
  induction before with
  | nil => simp [findTagStr, ht]
  | cons x xs ih =>
    have hx : tag x = false := hb x (by simp)
    simp only [List.cons_append, findTagStr, hx]
    exact ih (fun y hy => hb y (by simp [hy]))

/-- Without a token matching `tag:*` the loop leaves `tagStr` empty. -/
theorem findTagStr_eq_nil (strData : List GoString) (h : ∀ x ∈ strData, tag x = false) :
    findTagStr strData = [] := by
  induction strData with
  | nil => simp [findTagStr]
  | cons x xs ih =>
    have hx : tag x = false := h x (by simp)
    simp only [findTagStr, hx]
    exact ih (fun y hy => h y (by simp [hy]))

theorem tag_ne_nil (s : GoString) (h : tag s = true) : s ≠ [] := by
  rintro rfl
  simp [tag, HasPrefix, lit] at h

/-! ## Facts about the scan of a line -/

/-- A line with fewer than two tokens is skipped. -/
theorem scanLine_of_short (fl : Flags) (text : GoString) (h : (Split 32 text).length < 2) :
    scanLine fl text = Outcome.skipped := by
  simp [scanLine, h]

/-- The scan of a line with at least two tokens, by its first two tokens. -/
theorem scanLine_of_tokens (fl : Flags) (text head body : GoString) (toks : List GoString)
    (h : Split 32 text = head :: body :: toks) :
    scanLine fl text =
      if head = lit "message" ∧ (req body = true ∨ rsp body = true ∨ ntf body = true) then
        Outcome.entry (fl.pfx ++ extractWordsAndToUpper fl.upper body)
          (hashStringToInt64 (fl.pfx ++ extractWordsAndToUpper fl.upper body))
          (valOf (head :: body :: toks))
      else Outcome.skipped := by
  unfold scanLine
  simp only [h, List.length_cons]
  by_cases hq : head = lit "message" ∧ (req body = true ∨ rsp body = true ∨ ntf body = true)
  · have hlen : ¬ (toks.length + 1 + 1 < 2) := by omega
    have hq2 : (req body = true ∨ rsp body = true) ∨ ntf body = true := by
      rcases hq.2 with h1 | h1 | h1 <;> simp [h1]
    obtain ⟨rfl, hq3⟩ := hq
    rcases findTagStr_nil_or_tag (lit "message" :: body :: toks) with ht | ht
    · simp [hlen, hq2, hq3, valOf, ht]
    · obtain ⟨val, hval⟩ := Split_colon_index_of_tag _ ht
      have hne := tag_ne_nil _ ht
      simp [hlen, hq2, hq3, valOf, hne, hval]
  · have hq' : ¬ (lit "message" = head ∧ (req body = true ∨ rsp body = true ∨ ntf body = true)) :=
      fun h' => hq ⟨h'.1.symm, h'.2⟩
    by_cases hh : head = lit "message"
    · subst hh
      simp only [true_and, not_or] at hq
      simp [hq]
    · simp [hh]

/-- No line makes the scan index out of range. -/
theorem scanLine_ne_panic (fl : Flags) (text : GoString) : scanLine fl text ≠ Outcome.panic := by
  cases hs : Split 32 text with
  | nil => exact absurd hs (Split_ne_nil 32 text)
  | cons head rest =>
    cases rest with
    | nil => rw [scanLine_of_short fl text (by simp [hs])]; simp
    | cons body toks =>
      rw [scanLine_of_tokens fl text head body toks hs]
      split <;> simp

/-! ## Facts about the walk -/

/-- A line is appended to both accumulators, and the step never panics. -/
theorem scanStep_eq (fl : Flags) (acc : GoString × GoString) (text : GoString) :
    scanStep fl acc text =
      some (acc.1 ++ contentOf (scanLine fl text), acc.2 ++ tagMapOf (scanLine fl text)) := by
  unfold scanStep
  have h := scanLine_ne_panic fl text
  split
  · contradiction
  · rfl

/-- The scan of a file appends the texts of its lines in order. -/
theorem scanFile_eq (fl : Flags) (texts : List GoString) (acc : GoString × GoString) :
    scanFile fl texts acc =
      some (acc.1 ++ texts.flatMap (fun t => contentOf (scanLine fl t)),
        acc.2 ++ texts.flatMap (fun t => tagMapOf (scanLine fl t))) := by
  induction texts generalizing acc with
  | nil => simp [scanFile]
  | cons t ts ih => simp [scanFile, scanStep_eq, ih]

/-- The scan of several files appends the texts of all their lines, file after file. -/
theorem scanFiles_eq (fl : Flags) (files : List (List GoString)) (acc : GoString × GoString) :
    scanFiles fl files acc =
      Walk.done (acc.1 ++ files.flatten.flatMap (fun t => contentOf (scanLine fl t)))
        (acc.2 ++ files.flatten.flatMap (fun t => tagMapOf (scanLine fl t))) := by
  induction files generalizing acc with
  | nil => simp [scanFiles]
  | cons f fs ih => simp [scanFiles, scanFile_eq, ih, List.flatMap_append]

/-- A walk without a walk error is the scan of the files it reaches. -/
theorem walkDir_eq_scanFiles (fl : Flags) (vs : List Visit) (acc : GoString × GoString)
    (h : ∀ v ∈ vs, v.err = false) :
    walkDir fl vs acc = scanFiles fl ((vs.filter isScanned).map Visit.lines) acc := by
  induction vs generalizing acc with
  | nil => simp [walkDir, scanFiles]
  | cons v vs ih =>
    have hv : v.err = false := h v (by simp)
    have hvs : ∀ w ∈ vs, w.err = false := fun w hw => h w (by simp [hw])
    unfold walkDir
    simp only [hv, Bool.false_eq_true, if_false]
    by_cases h1 : v.name = msgIDFile
    · simp [h1, isScanned, ih _ hvs]
    · by_cases h2 : Ext v.name = lit ".proto"
      · by_cases h3 : v.openErr = true
        · simp [h1, h2, h3, isScanned, ih _ hvs]
        · have h3' : v.openErr = false := by simpa using h3
          simp only [h1, h2, h3', if_false, ne_eq, not_true_eq_false, Bool.false_eq_true]
          have hs : isScanned v = true := by simp [isScanned, h1, h2, h3']
          simp only [List.filter_cons, hs, if_true, List.map_cons, scanFiles]
          cases hf : scanFile fl v.lines acc with
          | none => rfl
          | some acc1 => exact ih acc1 hvs
      · simp [h1, h2, isScanned, ih _ hvs]

/-- No walk ends in an index out of range. -/
theorem walkDir_ne_panic (fl : Flags) (vs : List Visit) (acc : GoString × GoString) :
    walkDir fl vs acc ≠ Walk.panic := by
  induction vs generalizing acc with
  | nil => simp [walkDir]
  | cons v vs ih =>
    unfold walkDir
    split
    · simp
    · split
      · exact ih acc
      · split
        · exact ih acc
        · split
          · exact ih acc
          · rw [scanFile_eq]
            exact ih _

/-! ## The claims -/

/-- C1: the identifier is not `(h mod 2147483647) - 1` as a signed integer for every
string. The name `RlpXLReq` has the FNV-1 hash `h = 2147483647`, a multiple of
2147483647; there `hashStringToInt64` returns 4294967295, the wrapped `uint32`
difference, and not -1. The empty string does give 18652613. -/
theorem hashStringToInt64_wraps_at_RlpXLReq :
    sum32 (lit "RlpXLReq") = 2147483647 ∧
    hashStringToInt64 (lit "RlpXLReq") = 4294967295 ∧
    hashStringToInt64 (lit "RlpXLReq")
      ≠ ((sum32 (lit "RlpXLReq") % 2147483647 : Nat) : Int) - 1 ∧
    hashStringToInt64 [] = 18652613 := by
  refine ⟨by decide, by decide, by decide, by decide⟩

/-- C2: the identifier does not always fit in a signed 32-bit integer. The qualifying
line `message RlpXLReq tag:net` is given the identifier 4294967295, above `2^31 - 1`,
and that number is written as an enumeration value and as a key of the tag table. -/
theorem identifier_exceeds_int32_at_RlpXLReq :
    ¬ (hashStringToInt64 (lit "RlpXLReq") ≤ 2 ^ 31 - 1) ∧
    scanLine { upper := false, pfx := [] } (lit "message RlpXLReq tag:net")
      = Outcome.entry (lit "RlpXLReq") 4294967295 (some (lit "net")) ∧
    contentOf (scanLine { upper := false, pfx := [] } (lit "message RlpXLReq tag:net"))
      = lit "    RlpXLReq = 4294967295;// dispatch to net\n" ∧
    tagMapOf (scanLine { upper := false, pfx := [] } (lit "message RlpXLReq tag:net"))
      = lit "    4294967295 : \"net\",\n" := by
  refine ⟨by decide, by decide, by decide, by decide⟩

/-- C3: the output is a function of the input alone. Two walks without a walk error
that reach files with the same lines in the same order, whatever the names of the
entries and whatever else is visited, end the run in the same way with the same
enumeration and tag texts, for the same package name, prefix and uppercase setting. And
two qualifying lines with the same emitted name are given the same identifier, whatever
the flags, the tag and the other tokens of the two lines. -/
theorem output_determined_by_input :
    (∀ (packageName : GoString) (fl : Flags) (vs1 vs2 : List Visit),
      (∀ v ∈ vs1, v.err = false) → (∀ v ∈ vs2, v.err = false) →
      (vs1.filter isScanned).map Visit.lines = (vs2.filter isScanned).map Visit.lines →
      main packageName fl vs1 = main packageName fl vs2) ∧
    (∀ (fl1 fl2 : Flags) (text1 text2 body1 body2 : GoString) (numStr1 numStr2 : Int)
      (val1 val2 : Option GoString),
      scanLine fl1 text1 = Outcome.entry body1 numStr1 val1 →
      scanLine fl2 text2 = Outcome.entry body2 numStr2 val2 →
      body1 = body2 → numStr1 = numStr2) := by
  constructor
  · intro packageName fl vs1 vs2 h1 h2 heq
    unfold main
    rw [walkDir_eq_scanFiles fl vs1 _ h1, walkDir_eq_scanFiles fl vs2 _ h2, heq]
  · intro fl1 fl2 text1 text2 body1 body2 numStr1 numStr2 val1 val2 e1 e2 hb
    have key : ∀ (fl : Flags) (text body : GoString) (numStr : Int) (val : Option GoString),
        scanLine fl text = Outcome.entry body numStr val → numStr = hashStringToInt64 body := by
      intro fl text body numStr val e
      cases hs : Split 32 text with
      | nil => exact absurd hs (Split_ne_nil 32 text)
      | cons head rest =>
        cases rest with
        | nil =>
          rw [scanLine_of_short fl text (by simp [hs])] at e
          cases e
        | cons b toks =>
          rw [scanLine_of_tokens fl text head b toks hs] at e
          split at e
          · cases e; rfl
          · cases e
    rw [key fl1 text1 body1 numStr1 val1 e1, key fl2 text2 body2 numStr2 val2 e2, hb]

/-- A witness of C3: the file `a.proto`, and the file `b.proto` visited after an entry
that is not scanned, hold the same lines and give the same run; and the line
`message Req` under the prefix `Ping` is given the identifier of the line
`message PingReq tag:net` under no prefix, both being emitted as `PingReq`. -/
theorem output_determined_by_input_witness :
    main (lit "pb") { upper := false, pfx := [] }
        [{ name := lit "a.proto", err := false, openErr := false,
           lines := [lit "message PingReq tag:net"] }]
      = main (lit "pb") { upper := false, pfx := [] }
        [{ name := lit "README", err := false, openErr := false, lines := [lit "x y"] },
         { name := lit "b.proto", err := false, openErr := false,
           lines := [lit "message PingReq tag:net"] }] ∧
    hashStringToInt64 (lit "Ping" ++ lit "Req") = 944960739 :=
  ⟨output_determined_by_input.1 (lit "pb") { upper := false, pfx := [] } _ _
      (by decide) (by decide) (by decide),
    output_determined_by_input.2 { upper := false, pfx := lit "Ping" }
      { upper := false, pfx := [] }
      (lit "message Req") (lit "message PingReq tag:net") (lit "PingReq") (lit "PingReq")
      (hashStringToInt64 (lit "Ping" ++ lit "Req")) 944960739 none (some (lit "net"))
      (by decide) (by decide) rfl⟩

/-- C4: the emitted name is not the normalisation of prefix ++ name. With the prefix
`p` and the uppercase option on, the line `message FooReq` is emitted and hashed as
`pFOOREQ`, the prefix left as typed, while the normalisation of `pFooReq` is `PFOOREQ`;
with the prefix `p-` the emitted name is `p-FooReq`, while the normalisation is
`pFooReq`. The sentinel of the same run does normalise the prefix: `PUNKNOWN`. For the
prefix `P` and the name `LoginReq` with uppercase off the emitted name is `PLoginReq`. -/
theorem emitted_name_keeps_raw_pfx :
    scanLine { upper := true, pfx := lit "p" } (lit "message FooReq")
      = Outcome.entry (lit "pFOOREQ") (hashStringToInt64 (lit "pFOOREQ")) none ∧
    extractWordsAndToUpper true (lit "p" ++ lit "FooReq") = lit "PFOOREQ" ∧
    scanLine { upper := false, pfx := lit "p-" } (lit "message FooReq")
      = Outcome.entry (lit "p-FooReq") (hashStringToInt64 (lit "p-FooReq")) none ∧
    extractWordsAndToUpper false (lit "p-" ++ lit "FooReq") = lit "pFooReq" ∧
    firstMsgID { upper := true, pfx := lit "p" } = lit "PUNKNOWN = 0;\n" ∧
    scanLine { upper := false, pfx := lit "P" } (lit "message LoginReq")
      = Outcome.entry (lit "PLoginReq") (hashStringToInt64 (lit "PLoginReq")) none := by
  refine ⟨by decide, by decide, by decide, by decide, by decide, by decide⟩

/-- C5: with the uppercase option off `extractWordsAndToUpper` returns its input with
every byte outside `[A-Za-z0-9_]` removed, order and casing kept; with the option on
it returns that string with every ASCII lowercase letter replaced by its uppercase
letter. So `fooReq` gives `FOOREQ`. -/
theorem extractWordsAndToUpper_filters_word_bytes (s : GoString) :
    extractWordsAndToUpper false s
      = s.filter (fun c => decide ((48 ≤ c ∧ c ≤ 57) ∨ (65 ≤ c ∧ c ≤ 90) ∨ c = 95
          ∨ (97 ≤ c ∧ c ≤ 122))) ∧
    extractWordsAndToUpper true s
      = (s.filter (fun c => decide ((48 ≤ c ∧ c ≤ 57) ∨ (65 ≤ c ∧ c ≤ 90) ∨ c = 95
          ∨ (97 ≤ c ∧ c ≤ 122)))).map (fun c => if 97 ≤ c ∧ c ≤ 122 then c - 32 else c) ∧
    extractWordsAndToUpper true (lit "fooReq") = lit "FOOREQ" := by
  have hw : isWordByte = fun c => decide ((48 ≤ c ∧ c ≤ 57) ∨ (65 ≤ c ∧ c ≤ 90) ∨ c = 95
      ∨ (97 ≤ c ∧ c ≤ 122)) := by
    funext c
    rw [Bool.eq_iff_iff]
    simp only [isWordByte, Bool.or_eq_true, Bool.and_eq_true, decide_eq_true_eq, beq_iff_eq]
    tauto
  refine ⟨?_, ?_, by decide⟩
  · rw [extractWordsAndToUpper_eq, hw]
    simp
  · rw [extractWordsAndToUpper_eq, hw]
    simp [toUpperByte]

/-- The tokens of a line that begins with `message`, one space and a name `n` without a
space, followed by the end of the line or by a space. -/
theorem Split_message_line (n tail : GoString) (hn : 32 ∉ n)
    (htail : tail = [] ∨ ∃ r, tail = 32 :: r) :
    ∃ toks, Split 32 (lit "message " ++ n ++ tail) = lit "message" :: n :: toks := by
  have h : lit "message " ++ n ++ tail = lit "message" ++ 32 :: (n ++ tail) := by
    simp [lit]
  rw [h, Split_append_sep 32 (lit "message") _ (by decide)]
  rcases htail with rfl | ⟨r, rfl⟩
  · exact ⟨[], by simp [Split_of_not_mem 32 n hn]⟩
  · exact ⟨Split 32 r, by rw [Split_append_sep 32 n r hn]⟩

/-- C6: for a name `n` without a space, the line `message ` ++ `n` yields one entry, for
the name `n`, when `n` ends with `Req`, `Rsp` or `Ntf`, and is skipped otherwise; and a
line whose first token is not `message` is skipped, whatever follows. `FooReq` and
`SubFooReq` qualify, `FooBar` does not. -/
theorem message_line_qualifies_iff_suffix (fl : Flags) (n : GoString) (hn : 32 ∉ n) :
    ((lit "Req" <:+ n ∨ lit "Rsp" <:+ n ∨ lit "Ntf" <:+ n) →
      ∃ val, scanLine fl (lit "message " ++ n)
        = Outcome.entry (fl.pfx ++ extractWordsAndToUpper fl.upper n)
            (hashStringToInt64 (fl.pfx ++ extractWordsAndToUpper fl.upper n)) val) ∧
    (¬ (lit "Req" <:+ n ∨ lit "Rsp" <:+ n ∨ lit "Ntf" <:+ n) →
      scanLine fl (lit "message " ++ n) = Outcome.skipped) ∧
    (∀ text : GoString, (Split 32 text).head? ≠ some (lit "message") →
      scanLine fl text = Outcome.skipped) ∧
    scanLine fl (lit "message FooBar") = Outcome.skipped ∧
    (∃ val, scanLine fl (lit "message FooReq")
      = Outcome.entry (fl.pfx ++ extractWordsAndToUpper fl.upper (lit "FooReq"))
          (hashStringToInt64 (fl.pfx ++ extractWordsAndToUpper fl.upper (lit "FooReq"))) val) ∧
    (∃ val, scanLine fl (lit "message SubFooReq")
      = Outcome.entry (fl.pfx ++ extractWordsAndToUpper fl.upper (lit "SubFooReq"))
          (hashStringToInt64 (fl.pfx ++ extractWordsAndToUpper fl.upper (lit "SubFooReq")))
          val) := by
  have key : ∀ m : GoString, 32 ∉ m →
      scanLine fl (lit "message " ++ m) =
        if lit "Req" <:+ m ∨ lit "Rsp" <:+ m ∨ lit "Ntf" <:+ m then
          Outcome.entry (fl.pfx ++ extractWordsAndToUpper fl.upper m)
            (hashStringToInt64 (fl.pfx ++ extractWordsAndToUpper fl.upper m))
            (valOf [lit "message", m])
        else Outcome.skipped := by
    intro m hm
    have ht2 : Split 32 (lit "message " ++ m) = [lit "message", m] := by
      have h : lit "message " ++ m = lit "message" ++ 32 :: m := by simp [lit]
      rw [h, Split_append_sep 32 (lit "message") _ (by decide), Split_of_not_mem 32 m hm]
    rw [scanLine_of_tokens fl _ _ _ _ ht2]
    simp only [req_iff, rsp_iff, ntf_iff, true_and]
  refine ⟨?_, ?_, ?_, ?_, ?_, ?_⟩
  · intro h
    exact ⟨_, by rw [key n hn, if_pos h]⟩
  · intro h
    rw [key n hn, if_neg h]
  · intro text hhead
    cases hs : Split 32 text with
    | nil => exact absurd hs (Split_ne_nil 32 text)
    | cons head rest =>
      cases rest with
      | nil => exact scanLine_of_short fl text (by simp [hs])
      | cons body toks =>
        rw [scanLine_of_tokens fl text head body toks hs]
        have hne : head ≠ lit "message" := by
          intro e
          apply hhead
          simp [hs, e]
        simp [hne]
  · have e : lit "message FooBar" = lit "message " ++ lit "FooBar" := by decide
    rw [e, key (lit "FooBar") (by decide), if_neg (by decide)]
  · have e : lit "message FooReq" = lit "message " ++ lit "FooReq" := by decide
    exact ⟨_, by rw [e, key (lit "FooReq") (by decide), if_pos (by decide)]⟩
  · have e : lit "message SubFooReq" = lit "message " ++ lit "SubFooReq" := by decide
    exact ⟨_, by rw [e, key (lit "SubFooReq") (by decide), if_pos (by decide)]⟩

/-- A witness of C6: the name `PingReq` has no space, and the line `message PingReq`
yields the entry for it. -/
theorem message_line_qualifies_iff_suffix_witness :
    32 ∉ lit "PingReq" ∧
    ∃ val, scanLine { upper := false, pfx := [] } (lit "message " ++ lit "PingReq")
      = Outcome.entry ([] ++ extractWordsAndToUpper false (lit "PingReq"))
          (hashStringToInt64 ([] ++ extractWordsAndToUpper false (lit "PingReq"))) val :=
  ⟨by decide,
    (message_line_qualifies_iff_suffix { upper := false, pfx := [] } (lit "PingReq")
      (by decide)).1 (by decide)⟩

/-- C7, as stated, fails: lines are cut at every single space and nowhere else. The
line `message  FooReq` with two spaces has the empty second token, the line with a tab
has one token and the indented line has the empty first token: none yields an entry. -/
theorem whitespace_runs_yield_no_entry :
    scanLine { upper := false, pfx := [] } (lit "message  FooReq") = Outcome.skipped ∧
    scanLine { upper := false, pfx := [] } (lit "message\tFooReq") = Outcome.skipped ∧
    scanLine { upper := false, pfx := [] } (lit "  message FooReq") = Outcome.skipped ∧
    Split 32 (lit "message  FooReq") = [lit "message", [], lit "FooReq"] ∧
    Split 32 (lit "message\tFooReq") = [lit "message\tFooReq"] ∧
    Split 32 (lit "  message FooReq") = [[], [], lit "message", lit "FooReq"] := by
  refine ⟨by decide, by decide, by decide, by decide, by decide, by decide⟩

/-- C7, amended: lines are cut at single spaces. A line that begins with `message`, one
space and a name `n` without a space that ends in `Req`, `Rsp` or `Ntf`, and then ends
or goes on with a space, yields the entry for `n`. -/
theorem single_space_declaration_yields_entry (fl : Flags) (n tail : GoString)
    (hn : 32 ∉ n) (htail : tail = [] ∨ ∃ r, tail = 32 :: r)
    (hs : lit "Req" <:+ n ∨ lit "Rsp" <:+ n ∨ lit "Ntf" <:+ n) :
    ∃ val, scanLine fl (lit "message " ++ n ++ tail)
      = Outcome.entry (fl.pfx ++ extractWordsAndToUpper fl.upper n)
          (hashStringToInt64 (fl.pfx ++ extractWordsAndToUpper fl.upper n)) val := by
  obtain ⟨toks, ht⟩ := Split_message_line n tail hn htail
  refine ⟨valOf (lit "message" :: n :: toks), ?_⟩
  rw [scanLine_of_tokens fl _ _ _ _ ht]
  have hq : lit "message" = lit "message" ∧ (req n = true ∨ rsp n = true ∨ ntf n = true) := by
    simpa [req_iff, rsp_iff, ntf_iff] using hs
  rw [if_pos hq]

/-- A witness of C7, amended: the line `message FooReq tag:net  x`. -/
theorem single_space_declaration_yields_entry_witness :
    32 ∉ lit "FooReq" ∧
    ∃ val, scanLine { upper := false, pfx := [] }
        (lit "message " ++ lit "FooReq" ++ lit " tag:net  x")
      = Outcome.entry ([] ++ extractWordsAndToUpper false (lit "FooReq"))
          (hashStringToInt64 ([] ++ extractWordsAndToUpper false (lit "FooReq"))) val :=
  ⟨by decide,
    single_space_declaration_yields_entry { upper := false, pfx := [] } (lit "FooReq")
      (lit " tag:net  x") (by decide) (Or.inr ⟨lit "tag:net  x", by decide⟩)
      (Or.inl (by decide))⟩

/-- C8, as stated, fails: for the token `tag:a:b` the dispatch tag is `a`, not `a:b`,
in the enumeration text and in the tag text. -/
theorem tag_value_stops_at_second_colon :
    scanLine { upper := false, pfx := [] } (lit "message PingReq tag:a:b")
      = Outcome.entry (lit "PingReq") (hashStringToInt64 (lit "PingReq")) (some (lit "a")) ∧
    lit "a" ≠ lit "a:b" ∧
    contentOf (scanLine { upper := false, pfx := [] } (lit "message PingReq tag:a:b"))
      = lit "    PingReq = " ++ formatInt (hashStringToInt64 (lit "PingReq"))
          ++ lit ";// dispatch to a\n" ∧
    tagMapOf (scanLine { upper := false, pfx := [] } (lit "message PingReq tag:a:b"))
      = lit "    " ++ formatInt (hashStringToInt64 (lit "PingReq")) ++ lit " : \"a\",\n" := by
  refine ⟨by decide, by decide, by decide, by decide⟩

/-- C8, amended: for a qualifying line, the dispatch tag is the part of the first token
beginning with `tag:` that lies between its first colon and its next colon, or its end
when it has no other colon. -/
theorem tag_value_is_second_colon_field (fl : Flags) (text body v rest : GoString)
    (numStr : Int) (before after : List GoString)
    (hq : ∃ val, scanLine fl text = Outcome.entry body numStr val)
    (ht : Split 32 text = before ++ (lit "tag:" ++ v ++ rest) :: after)
    (hb : ∀ x ∈ before, ¬ lit "tag:" <+: x)
    (hv : 58 ∉ v) (hrest : rest = [] ∨ ∃ r, rest = 58 :: r) :
    scanLine fl text = Outcome.entry body numStr (some v) := by
  obtain ⟨val, hq⟩ := hq
  have htag : tag (lit "tag:" ++ v ++ rest) = true :=
    (tag_iff _).2 ⟨v ++ rest, by simp⟩
  have hfind : findTagStr (Split 32 text) = lit "tag:" ++ v ++ rest := by
    rw [ht]
    refine findTagStr_append before after _ (fun x hx => ?_) htag
    have := hb x hx
    rw [← tag_iff] at this
    simpa using this
  have hval : valOf (Split 32 text) = some v := by
    unfold valOf
    rw [hfind, if_pos (tag_ne_nil _ htag)]
    exact Split_colon_index_eq v rest hv hrest
  cases hs : Split 32 text with
  | nil => exact absurd hs (Split_ne_nil 32 text)
  | cons head rest1 =>
    cases rest1 with
    | nil =>
      rw [scanLine_of_short fl text (by simp [hs])] at hq
      cases hq
    | cons b toks =>
      have hq2 := hq
      rw [scanLine_of_tokens fl text head b toks hs] at hq2
      split at hq2
      · rw [← hs, hval] at hq2
        cases hq2
        exact hq
      · cases hq2

/-- A witness of C8, amended: in the line `message PingReq x tag:a:b tag:c` the first
tag token is `tag:a:b` and the dispatch tag is `a`. -/
theorem tag_value_is_second_colon_field_witness :
    scanLine { upper := false, pfx := [] } (lit "message PingReq x tag:a:b tag:c")
      = Outcome.entry (lit "PingReq") (hashStringToInt64 (lit "PingReq")) (some (lit "a")) :=
  tag_value_is_second_colon_field { upper := false, pfx := [] }
    (lit "message PingReq x tag:a:b tag:c") (lit "PingReq") (lit "a") (lit ":b")
    (hashStringToInt64 (lit "PingReq")) [lit "message", lit "PingReq", lit "x"] [lit "tag:c"]
    ⟨some (lit "a"), by decide⟩ (by decide) (by decide) (by decide)
    (Or.inr ⟨lit "b", by decide⟩)

/-- The identifier of an entry is the hash of its emitted name, and its dispatch tag is
the value read from the tokens of the line. -/
theorem entry_of_scanLine (fl : Flags) (text body : GoString) (numStr : Int)
    (val : Option GoString) (h : scanLine fl text = Outcome.entry body numStr val) :
    numStr = hashStringToInt64 body ∧ val = valOf (Split 32 text) := by
  cases hs : Split 32 text with
  | nil => exact absurd hs (Split_ne_nil 32 text)
  | cons head rest =>
    cases rest with
    | nil =>
      rw [scanLine_of_short fl text (by simp [hs])] at h
      cases h
    | cons b toks =>
      rw [scanLine_of_tokens fl text head b toks hs] at h
      split at h
      · cases h
        exact ⟨rfl, rfl⟩
      · cases h

/-- The dispatch tag of a line is present exactly when a token matches `tag:*`. -/
theorem valOf_eq_none_iff (strData : List GoString) :
    valOf strData = none ↔ ∀ x ∈ strData, ¬ lit "tag:" <+: x := by
  constructor
  · intro h x hx hp
    obtain ⟨before, after, rfl⟩ := List.append_of_mem hx
    have hfirst : ∃ t, tag t = true ∧ findTagStr (before ++ x :: after) = t := by
      clear h hx
      induction before with
      | nil => exact ⟨x, (tag_iff x).2 hp, by simp [findTagStr, (tag_iff x).2 hp]⟩
      | cons y ys ih =>
        by_cases hy : tag y = true
        · exact ⟨y, hy, by simp [findTagStr, hy]⟩
        · obtain ⟨t, ht, hf⟩ := ih
          exact ⟨t, ht, by simpa [findTagStr, hy] using hf⟩
    obtain ⟨t, ht, hf⟩ := hfirst
    obtain ⟨w, hw⟩ := Split_colon_index_of_tag t ht
    unfold valOf at h
    rw [hf, if_pos (tag_ne_nil t ht), hw] at h
    cases h
  · intro h
    unfold valOf
    rw [findTagStr_eq_nil strData (fun x hx => by
      have := h x hx
      rw [← tag_iff] at this
      simpa using this)]
    simp

/-- C9: a qualifying line with emitted name `N` and identifier `I` has
`I = hashStringToInt64 N`, printed in decimal. Without a token beginning with `tag:` it
appends exactly `    N = I;` and a newline to the enumeration text and nothing to the tag
text. With such a token it has a dispatch tag `T`, and it appends exactly
`    N = I;// dispatch to T` and a newline to the enumeration text and `    I : "T",` and
a newline to the tag text. -/
theorem line_contribution (fl : Flags) (text N : GoString) (I : Int)
    (val : Option GoString) (content tagMap : GoString)
    (hq : scanLine fl text = Outcome.entry N I val) :
    I = hashStringToInt64 N ∧
    ((∀ x ∈ Split 32 text, ¬ lit "tag:" <+: x) →
      scanStep fl (content, tagMap) text
        = some (content ++ (lit "    " ++ N ++ lit " = " ++ formatInt I ++ lit ";\n"),
            tagMap)) ∧
    ((∃ x ∈ Split 32 text, lit "tag:" <+: x) →
      ∃ T, val = some T ∧
        scanStep fl (content, tagMap) text
          = some (content ++ (lit "    " ++ N ++ lit " = " ++ formatInt I
                ++ lit ";// dispatch to " ++ T ++ lit "\n"),
              tagMap ++ (lit "    " ++ formatInt I ++ lit " : \"" ++ T ++ lit "\",\n"))) := by
  obtain ⟨hI, hval⟩ := entry_of_scanLine fl text N I val hq
  refine ⟨hI, ?_, ?_⟩
  · intro hno
    have hnone : val = none := by rw [hval]; exact (valOf_eq_none_iff _).2 hno
    subst hnone
    rw [scanStep_eq, hq]
    simp [contentOf, tagMapOf, lit]
  · intro hsome
    cases val with
    | none =>
      exfalso
      obtain ⟨x, hx, hp⟩ := hsome
      exact (valOf_eq_none_iff _).1 hval.symm x hx hp
    | some T =>
      refine ⟨T, rfl, ?_⟩
      rw [scanStep_eq, hq]
      simp [contentOf, tagMapOf, lit]

/-- A witness of C9: the line `message PingReq tag:net` has the identifier 944960739
and appends `    PingReq = 944960739;// dispatch to net` to the enumeration text and
`    944960739 : "net",` to the tag text. -/
theorem line_contribution_witness :
    (944960739 : Int) = hashStringToInt64 (lit "PingReq") ∧
    scanStep { upper := false, pfx := [] } ([], []) (lit "message PingReq tag:net")
      = some (lit "    PingReq = 944960739;// dispatch to net\n",
          lit "    944960739 : \"net\",\n") := by
  have h := line_contribution { upper := false, pfx := [] } (lit "message PingReq tag:net")
    (lit "PingReq") 944960739 (some (lit "net")) [] [] (by decide)
  refine ⟨h.1, ?_⟩
  obtain ⟨T, hT, hstep⟩ := h.2.2 ⟨lit "tag:net", by decide, by decide⟩
  cases hT
  rw [hstep]
  decide

/-- A walk that is complete met no walk error. -/
theorem err_false_of_walkDir_done (fl : Flags) (vs : List Visit) (acc : GoString × GoString)
    (content tagMap : GoString) (h : walkDir fl vs acc = Walk.done content tagMap) :
    ∀ v ∈ vs, v.err = false := by
  induction vs generalizing acc with
  | nil => simp
  | cons v vs ih =>
    unfold walkDir at h
    by_cases hv : v.err = true
    · simp [hv] at h
    · have hv' : v.err = false := by simpa using hv
      simp only [hv', Bool.false_eq_true, if_false] at h
      have hrest : ∀ w ∈ vs, w.err = false := by
        split at h
        · exact ih acc h
        · split at h
          · exact ih acc h
          · split at h
            · exact ih acc h
            · rw [scanFile_eq] at h
              exact ih _ h
      intro w hw
      rcases List.mem_cons.1 hw with rfl | hw
      · exact hv'
      · exact hrest w hw

/-- The sentinel: the four leading spaces of the argument are dropped by the
normalisation. -/
theorem firstMsgID_eq (fl : Flags) :
    firstMsgID fl = extractWordsAndToUpper fl.upper (fl.pfx ++ lit "Unknown") ++ lit " = 0;\n" := by
  unfold firstMsgID
  rw [extractWordsAndToUpper_eq, extractWordsAndToUpper_eq]
  have h : (lit "    ").filter isWordByte = [] := by decide
  simp [List.filter_append, h]

/-- A run completes exactly when it has a package name and meets no walk error; the
content is then the sentinel followed by the texts of the scanned lines, and the tag
table is the tag text when that is not empty. -/
theorem main_ok_iff (packageName : GoString) (fl : Flags) (vs : List Visit) (out : Output) :
    main packageName fl vs = Run.ok out ↔
      packageName ≠ [] ∧ (∀ v ∈ vs, v.err = false) ∧
      out.Content = firstMsgID fl ++
        ((vs.filter isScanned).map Visit.lines).flatten.flatMap
          (fun t => contentOf (scanLine fl t)) ∧
      out.Tags =
        (if ((vs.filter isScanned).map Visit.lines).flatten.flatMap
              (fun t => tagMapOf (scanLine fl t)) ≠ [] then
          some (((vs.filter isScanned).map Visit.lines).flatten.flatMap
              (fun t => tagMapOf (scanLine fl t)))
        else none) := by
  unfold main
  by_cases hp : packageName = []
  · simp [hp]
  · simp only [hp, if_false, ne_eq, not_false_eq_true, true_and]
    by_cases he : ∀ v ∈ vs, v.err = false
    · rw [walkDir_eq_scanFiles fl vs _ he, scanFiles_eq]
      simp only [List.nil_append]
      constructor
      · intro h
        cases h
        exact ⟨he, rfl, rfl⟩
      · rintro ⟨-, h1, h2⟩
        cases out
        simp only at h1 h2
        subst h1
        subst h2
        rfl
    · constructor
      · intro h
        exfalso
        cases hw : walkDir fl vs ([], []) with
        | fatal => rw [hw] at h; cases h
        | panic => rw [hw] at h; cases h
        | done content tagMap => exact he (err_false_of_walkDir_done fl vs _ _ _ hw)
      · intro h
        exact absurd h.1 he

/-- C10: whenever a run hands content to the enumeration template, that content is the
sentinel entry `S = 0;` and a newline, `S` being the normalisation of prefix ++ `Unknown`,
followed by the entries of the qualifying lines; when no scanned line qualifies the
content is exactly the sentinel entry. A run with a package name and no walk error does
hand content to the template. -/
theorem content_begins_with_sentinel (packageName : GoString) (fl : Flags) (vs : List Visit) :
    (packageName ≠ [] → (∀ v ∈ vs, v.err = false) →
      ∃ out, main packageName fl vs = Run.ok out) ∧
    (∀ out, main packageName fl vs = Run.ok out →
      out.Content =
        (extractWordsAndToUpper fl.upper (fl.pfx ++ lit "Unknown") ++ lit " = 0;\n") ++
          ((vs.filter isScanned).map Visit.lines).flatten.flatMap
            (fun t => contentOf (scanLine fl t)) ∧
      ((∀ v ∈ vs, isScanned v = true → ∀ t ∈ v.lines,
          ∀ body numStr val, scanLine fl t ≠ Outcome.entry body numStr val) →
        out.Content
          = extractWordsAndToUpper fl.upper (fl.pfx ++ lit "Unknown") ++ lit " = 0;\n")) := by
  constructor
  · intro hp he
    exact ⟨⟨_, _⟩, (main_ok_iff packageName fl vs _).2 ⟨hp, he, rfl, rfl⟩⟩
  · intro out hout
    obtain ⟨-, -, hc, -⟩ := (main_ok_iff packageName fl vs out).1 hout
    rw [firstMsgID_eq] at hc
    refine ⟨hc, ?_⟩
    intro hno
    rw [hc]
    have hnil : ((vs.filter isScanned).map Visit.lines).flatten.flatMap
        (fun t => contentOf (scanLine fl t)) = [] := by
      rw [List.flatMap_eq_nil_iff]
      intro t ht
      obtain ⟨texts, htexts, hmem⟩ := List.mem_flatten.1 ht
      obtain ⟨v, hv, rfl⟩ := List.mem_map.1 htexts
      obtain ⟨hv1, hv2⟩ := List.mem_filter.1 hv
      have hne := hno v hv1 hv2 t hmem
      cases ho : scanLine fl t with
      | panic => rfl
      | skipped => rfl
      | entry body numStr val => exact absurd ho (hne body numStr val)
    rw [hnil, List.append_nil]

/-- A witness of C10: with the prefix `p_` and uppercase on, a tree with one
declaration file gives the content `P_UNKNOWN = 0;` followed by the entry of its
qualifying line. -/
theorem content_begins_with_sentinel_witness :
    ∃ out, main (lit "pb") { upper := true, pfx := lit "p_" }
        [{ name := lit "a.proto", err := false, openErr := false,
           lines := [lit "package pb;", lit "message PingReq tag:net"] }] = Run.ok out ∧
      out.Content = lit "P_UNKNOWN = 0;\n" ++ lit "    p_PINGREQ = "
        ++ formatInt (hashStringToInt64 (lit "p_PINGREQ")) ++ lit ";// dispatch to net\n" := by
  obtain ⟨out, hout⟩ := (content_begins_with_sentinel (lit "pb")
    { upper := true, pfx := lit "p_" }
    [{ name := lit "a.proto", err := false, openErr := false,
       lines := [lit "package pb;", lit "message PingReq tag:net"] }]).1
    (by decide) (by decide)
  refine ⟨out, hout, ?_⟩
  rw [((content_begins_with_sentinel _ _ _).2 out hout).1]
  decide

/-! ## The claims on the whole run -/

theorem mem_scannedLines (vs : List Visit) (t : GoString) :
    t ∈ scannedLines vs ↔ ∃ v ∈ vs, isScanned v = true ∧ t ∈ v.lines := by
  unfold scannedLines
  constructor
  · intro ht
    obtain ⟨texts, htexts, hmem⟩ := List.mem_flatten.1 ht
    obtain ⟨v, hv, rfl⟩ := List.mem_map.1 htexts
    obtain ⟨hv1, hv2⟩ := List.mem_filter.1 hv
    exact ⟨v, hv1, hv2, hmem⟩
  · rintro ⟨v, hv1, hv2, hmem⟩
    exact List.mem_flatten.2
      ⟨v.lines, List.mem_map.2 ⟨v, List.mem_filter.2 ⟨hv1, hv2⟩, rfl⟩, hmem⟩

theorem scannedLines_append (vs1 vs2 : List Visit) :
    scannedLines (vs1 ++ vs2) = scannedLines vs1 ++ scannedLines vs2 := by
  simp [scannedLines]

/-- Only a qualifying line with a dispatch tag adds to the tag text. -/
theorem tagMapOf_ne_nil_iff (o : Outcome) : tagMapOf o ≠ [] ↔ o.hasTag = true := by
  cases o with
  | panic => simp [tagMapOf, Outcome.hasTag]
  | skipped => simp [tagMapOf, Outcome.hasTag]
  | entry body numStr val =>
    cases val with
    | none => simp [tagMapOf, Outcome.hasTag]
    | some T => simp [tagMapOf, Outcome.hasTag, lit]

/-- Only a qualifying line adds to the enumeration text. -/
theorem contentOf_ne_nil_iff (o : Outcome) : contentOf o ≠ [] ↔ o.isEntry = true := by
  cases o with
  | panic => simp [contentOf, Outcome.isEntry]
  | skipped => simp [contentOf, Outcome.isEntry]
  | entry body numStr val =>
    cases val with
    | none => simp [contentOf, Outcome.isEntry, lit]
    | some T => simp [contentOf, Outcome.isEntry, lit]

/-- A line has a dispatch tag exactly when it qualifies and has a token beginning with
`tag:`. -/
theorem hasTag_iff (fl : Flags) (t : GoString) :
    (scanLine fl t).hasTag = true ↔
      (scanLine fl t).isEntry = true ∧ ∃ x ∈ Split 32 t, lit "tag:" <+: x := by
  cases ho : scanLine fl t with
  | panic => simp [Outcome.hasTag, Outcome.isEntry]
  | skipped => simp [Outcome.hasTag, Outcome.isEntry]
  | entry body numStr val =>
    obtain ⟨-, hval⟩ := entry_of_scanLine fl t body numStr val ho
    cases val with
    | none =>
      have hno := (valOf_eq_none_iff _).1 hval.symm
      simp only [Outcome.hasTag, Outcome.isEntry, Bool.false_eq_true, true_and, false_iff,
        not_exists, not_and]
      exact hno
    | some T =>
      simp only [Outcome.hasTag, Outcome.isEntry, true_and, true_iff]
      by_contra hcon
      have hnone : valOf (Split 32 t) = none := by
        rw [valOf_eq_none_iff]
        intro x hx hp
        exact hcon ⟨x, hx, hp⟩
      rw [hnone] at hval
      cases hval

/-- C11: in a complete run the tag table is written exactly when some scanned line is a
qualifying declaration with a token beginning with `tag:`; when it is written its body is
the accumulated tag text; and a line that is not a qualifying declaration adds nothing to
the tag text, whatever its tokens. -/
theorem tag_table_written_iff (packageName : GoString) (fl : Flags) (vs : List Visit)
    (out : Output) (h : main packageName fl vs = Run.ok out) :
    (out.Tags ≠ none ↔
      ∃ v ∈ vs, isScanned v = true ∧ ∃ t ∈ v.lines,
        (∃ body numStr val, scanLine fl t = Outcome.entry body numStr val) ∧
        ∃ x ∈ Split 32 t, lit "tag:" <+: x) ∧
    (∀ tags, out.Tags = some tags →
      tags = (scannedLines vs).flatMap (fun t => tagMapOf (scanLine fl t))) ∧
    (∀ t : GoString, (∀ body numStr val, scanLine fl t ≠ Outcome.entry body numStr val) →
      tagMapOf (scanLine fl t) = []) := by
  obtain ⟨-, -, -, hT⟩ := (main_ok_iff packageName fl vs out).1 h
  have hT' : out.Tags =
      if (scannedLines vs).flatMap (fun t => tagMapOf (scanLine fl t)) ≠ [] then
        some ((scannedLines vs).flatMap (fun t => tagMapOf (scanLine fl t)))
      else none := hT
  clear h hT
  have hentry : ∀ t : GoString, (scanLine fl t).isEntry = true ↔
      ∃ body numStr val, scanLine fl t = Outcome.entry body numStr val := by
    intro t
    cases scanLine fl t <;> simp [Outcome.isEntry]
  refine ⟨?_, ?_, ?_⟩
  · have hne : out.Tags ≠ none ↔
        (scannedLines vs).flatMap (fun t => tagMapOf (scanLine fl t)) ≠ [] := by
      rw [hT']
      by_cases hx : (scannedLines vs).flatMap (fun t => tagMapOf (scanLine fl t)) = []
      · rw [if_neg (not_not.2 hx)]
        simp [hx]
      · rw [if_pos hx]
        simp [hx]
    rw [hne, Ne, List.flatMap_eq_nil_iff]
    constructor
    · intro hex
      by_contra hcon
      apply hex
      intro t ht
      by_contra hne2
      obtain ⟨v, hv1, hv2, hmem⟩ := (mem_scannedLines vs t).1 ht
      have h2 := (hasTag_iff fl t).1 ((tagMapOf_ne_nil_iff _).1 hne2)
      exact hcon ⟨v, hv1, hv2, t, hmem, (hentry t).1 h2.1, h2.2⟩
    · rintro ⟨v, hv1, hv2, t, hmem, hq, hx⟩ hall
      have ht : t ∈ scannedLines vs := (mem_scannedLines vs t).2 ⟨v, hv1, hv2, hmem⟩
      have h2 : (scanLine fl t).hasTag = true := (hasTag_iff fl t).2 ⟨(hentry t).2 hq, hx⟩
      exact (tagMapOf_ne_nil_iff _).2 h2 (hall t ht)
  · intro tags htags
    rw [hT'] at htags
    split at htags
    · cases htags
      rfl
    · cases htags
  · intro t hno
    cases ho : scanLine fl t with
    | panic => rfl
    | skipped => rfl
    | entry body numStr val => exact absurd ho (hno body numStr val)

/-- A witness of C11: a file whose only tag token is on a line that is no declaration
gives no tag table, and a file with the line `message PingReq tag:net` gives the tag
table with the one entry of that line. -/
theorem tag_table_written_iff_witness :
    main (lit "pb") { upper := false, pfx := [] }
        [{ name := lit "a.proto", err := false, openErr := false,
           lines := [lit "option tag:net", lit "message PingReq"] }]
      = Run.ok { Content := lit "Unknown = 0;\n    PingReq = 944960739;\n", Tags := none } ∧
    ∀ tags, (some (lit "    944960739 : \"net\",\n") : Option GoString) = some tags →
      tags = (scannedLines
        [{ name := lit "a.proto", err := false, openErr := false,
           lines := [lit "message PingReq tag:net"] }]).flatMap
        (fun t => tagMapOf (scanLine { upper := false, pfx := [] } t)) :=
  ⟨by decide,
    (tag_table_written_iff (lit "pb") { upper := false, pfx := [] }
      [{ name := lit "a.proto", err := false, openErr := false,
         lines := [lit "message PingReq tag:net"] }]
      { Content := lit "Unknown = 0;\n    PingReq = 944960739;// dispatch to net\n",
        Tags := some (lit "    944960739 : \"net\",\n") } (by decide)).2.1⟩

/-- Lines that add nothing can be left out of a concatenation. -/
theorem flatMap_eq_flatten_filter (f : GoString → GoString) (p : GoString → Bool)
    (texts : List GoString) (hp : ∀ t, p t = false → f t = []) :
    texts.flatMap f = ((texts.filter p).map f).flatten := by
  induction texts with
  | nil => simp
  | cons t ts ih =>
    by_cases ht : p t = true
    · simp [List.filter_cons, ht, ih]
    · have ht' : p t = false := by simpa using ht
      simp [List.filter_cons, ht', hp t ht', ih]

/-- C12: in a complete run over the entries `vs1` followed by the entries `vs2`, the
enumeration text after the sentinel is the text for `vs1` followed by the text for
`vs2`, and so is the tag text. The text for a walk is the concatenation, over its
scanned lines in visit order and line order, of one entry for each qualifying line, and
the tag text has one entry for each qualifying line with a tag: nothing is sorted,
merged or dropped. One file with `message LoginReq tag:auth` and `message PingNtf`
gives three lines of content and one tag entry. -/
theorem entries_in_scan_order (packageName : GoString) (fl : Flags) (vs1 vs2 : List Visit)
    (out : Output) (h : main packageName fl (vs1 ++ vs2) = Run.ok out) :
    out.Content = firstMsgID fl ++
      ((((scannedLines vs1).filter (fun t => (scanLine fl t).isEntry)).map
          (fun t => contentOf (scanLine fl t))).flatten ++
        (((scannedLines vs2).filter (fun t => (scanLine fl t).isEntry)).map
          (fun t => contentOf (scanLine fl t))).flatten) ∧
    (∀ tags, out.Tags = some tags →
      tags =
        (((scannedLines vs1).filter (fun t => (scanLine fl t).hasTag)).map
            (fun t => tagMapOf (scanLine fl t))).flatten ++
          (((scannedLines vs2).filter (fun t => (scanLine fl t).hasTag)).map
            (fun t => tagMapOf (scanLine fl t))).flatten) ∧
    (out.Tags = none →
      (scannedLines (vs1 ++ vs2)).filter (fun t => (scanLine fl t).hasTag) = []) ∧
    (∀ (v : Visit), isScanned v = true → scannedLines [v] = v.lines) ∧
    (∀ (v : Visit), isScanned v = false → scannedLines [v] = []) ∧
    main (lit "pb") { upper := false, pfx := [] }
        [{ name := lit "a.proto", err := false, openErr := false,
           lines := [lit "message LoginReq tag:auth", lit "message PingNtf"] }]
      = Run.ok
        { Content := lit "Unknown = 0;\n" ++ lit "    LoginReq = 220807908;// dispatch to auth\n"
            ++ lit "    PingNtf = 1229488543;\n",
          Tags := some (lit "    220807908 : \"auth\",\n") } ∧
    List.count 10 (lit "Unknown = 0;\n" ++ lit "    LoginReq = 220807908;// dispatch to auth\n"
      ++ lit "    PingNtf = 1229488543;\n") = 3 ∧
    hashStringToInt64 (lit "LoginReq") = 220807908 := by
  obtain ⟨-, -, hC, hT⟩ := (main_ok_iff packageName fl (vs1 ++ vs2) out).1 h
  have hC' : out.Content = firstMsgID fl ++
      (scannedLines (vs1 ++ vs2)).flatMap (fun t => contentOf (scanLine fl t)) := hC
  have hT' : out.Tags =
      if (scannedLines (vs1 ++ vs2)).flatMap (fun t => tagMapOf (scanLine fl t)) ≠ [] then
        some ((scannedLines (vs1 ++ vs2)).flatMap (fun t => tagMapOf (scanLine fl t)))
      else none := hT
  clear h hC hT
  have hc : ∀ texts : List GoString,
      texts.flatMap (fun t => contentOf (scanLine fl t)) =
        ((texts.filter (fun t => (scanLine fl t).isEntry)).map
          (fun t => contentOf (scanLine fl t))).flatten := by
    intro texts
    refine flatMap_eq_flatten_filter _ _ texts (fun t ht => ?_)
    by_contra hne
    rw [(contentOf_ne_nil_iff _).1 hne] at ht
    cases ht
  have ht : ∀ texts : List GoString,
      texts.flatMap (fun t => tagMapOf (scanLine fl t)) =
        ((texts.filter (fun t => (scanLine fl t).hasTag)).map
          (fun t => tagMapOf (scanLine fl t))).flatten := by
    intro texts
    refine flatMap_eq_flatten_filter _ _ texts (fun t ht => ?_)
    by_contra hne
    rw [(tagMapOf_ne_nil_iff _).1 hne] at ht
    cases ht
  refine ⟨?_, ?_, ?_, ?_, ?_, by decide, by decide, by decide⟩
  · rw [hC', scannedLines_append, List.flatMap_append, hc, hc]
  · intro tags htags
    rw [hT'] at htags
    split at htags
    · cases htags
      rw [scannedLines_append, List.flatMap_append, ht, ht]
    · cases htags
  · intro hnone
    rw [hT'] at hnone
    split at hnone
    · cases hnone
    · rename_i hnil
      have hnil' : (scannedLines (vs1 ++ vs2)).flatMap
          (fun t => tagMapOf (scanLine fl t)) = [] := not_not.1 hnil
      rw [List.flatMap_eq_nil_iff] at hnil'
      rw [List.filter_eq_nil_iff]
      intro t hmem hhas
      exact (tagMapOf_ne_nil_iff _).2 hhas (hnil' t hmem)
  · intro v hv
    simp [scannedLines, List.filter_cons, hv]
  · intro v hv
    simp [scannedLines, List.filter_cons, hv]

/-- A witness of C12: the file `a.proto` holds `message PingReq` twice and `b.proto`
holds it once with a tag; the content has the three entries in that order after the
sentinel. -/
theorem entries_in_scan_order_witness :
    lit "Unknown = 0;\n    PingReq = 944960739;\n    PingReq = 944960739;\n"
        ++ lit "    PingReq = 944960739;// dispatch to net\n"
      = firstMsgID { upper := false, pfx := [] } ++
      ((((scannedLines
          [{ name := lit "a.proto", err := false, openErr := false,
             lines := [lit "message PingReq", lit "\x7d", lit "message PingReq"] }]).filter
            (fun t => (scanLine { upper := false, pfx := [] } t).isEntry)).map
          (fun t => contentOf (scanLine { upper := false, pfx := [] } t))).flatten ++
        (((scannedLines
          [{ name := lit "b.proto", err := false, openErr := false,
             lines := [lit "message PingReq tag:net"] }]).filter
            (fun t => (scanLine { upper := false, pfx := [] } t).isEntry)).map
          (fun t => contentOf (scanLine { upper := false, pfx := [] } t))).flatten) :=
  (entries_in_scan_order (lit "pb") { upper := false, pfx := [] }
    [{ name := lit "a.proto", err := false, openErr := false,
       lines := [lit "message PingReq", lit "\x7d", lit "message PingReq"] }]
    [{ name := lit "b.proto", err := false, openErr := false,
       lines := [lit "message PingReq tag:net"] }]
    { Content := lit "Unknown = 0;\n    PingReq = 944960739;\n    PingReq = 944960739;\n"
        ++ lit "    PingReq = 944960739;// dispatch to net\n",
      Tags := some (lit "    944960739 : \"net\",\n") } (by decide)).1

/-- C13: the identifier mapping is not injective, and nothing is done about it. The
distinct names `ADXrReq` and `ApJuReq`, both left unchanged by the normalisation, have
the identifier 1096827499; a file declaring both gives a complete run whose content
holds both entries with that identifier, and whose tag table holds it twice as a key. -/
theorem distinct_names_share_identifier :
    lit "ADXrReq" ≠ lit "ApJuReq" ∧
    extractWordsAndToUpper false (lit "ADXrReq") = lit "ADXrReq" ∧
    extractWordsAndToUpper false (lit "ApJuReq") = lit "ApJuReq" ∧
    hashStringToInt64 (lit "ADXrReq") = 1096827499 ∧
    hashStringToInt64 (lit "ApJuReq") = 1096827499 ∧
    scanLine { upper := false, pfx := [] } (lit "message ADXrReq")
      = Outcome.entry (lit "ADXrReq") 1096827499 none ∧
    scanLine { upper := false, pfx := [] } (lit "message ApJuReq")
      = Outcome.entry (lit "ApJuReq") 1096827499 none ∧
    main (lit "pb") { upper := false, pfx := [] }
        [{ name := lit "a.proto", err := false, openErr := false,
           lines := [lit "message ADXrReq tag:x", lit "message ApJuReq tag:y"] }]
      = Run.ok
        { Content := lit "Unknown = 0;\n" ++ lit "    ADXrReq = 1096827499;// dispatch to x\n"
            ++ lit "    ApJuReq = 1096827499;// dispatch to y\n",
          Tags := some (lit "    1096827499 : \"x\",\n" ++ lit "    1096827499 : \"y\",\n") } := by
  refine ⟨by decide, by decide, by decide, by decide, by decide, by decide, by decide,
    by decide⟩

/-- C14: a failing `os.Open` does not abort the run. With `a.proto` failing to open and
`b.proto` holding `message PingReq`, the walk goes on past `a.proto`, the run is
complete and the content holds the entry of `b.proto`: the callback returns `err`,
which is nil, and not `openErr`. A walk error is what is fatal. -/
theorem open_failure_is_skipped :
    main (lit "pb") { upper := false, pfx := [] }
        [{ name := lit "a.proto", err := false, openErr := true,
           lines := [lit "message LoginReq"] },
         { name := lit "b.proto", err := false, openErr := false,
           lines := [lit "message PingReq"] }]
      = Run.ok { Content := lit "Unknown = 0;\n    PingReq = 944960739;\n", Tags := none } ∧
    main (lit "pb") { upper := false, pfx := [] }
        [{ name := lit "a.proto", err := false, openErr := true,
           lines := [lit "message LoginReq"] },
         { name := lit "b.proto", err := false, openErr := false,
           lines := [lit "message PingReq"] }]
      ≠ Run.fatal ∧
    main (lit "pb") { upper := false, pfx := [] }
        [{ name := lit "a.proto", err := true, openErr := false,
           lines := [lit "message LoginReq"] },
         { name := lit "b.proto", err := false, openErr := false,
           lines := [lit "message PingReq"] }]
      = Run.fatal := by
  refine ⟨by decide, by decide, by decide⟩

/-- The walk over a first part of the entries does not depend on how the rest is
walked, as long as the rest gives the same result from every state. -/
theorem walkDir_append_congr (fl : Flags) (vs rest1 rest2 : List Visit)
    (h : ∀ acc, walkDir fl rest1 acc = walkDir fl rest2 acc) (acc : GoString × GoString) :
    walkDir fl (vs ++ rest1) acc = walkDir fl (vs ++ rest2) acc := by
  induction vs generalizing acc with
  | nil => simpa using h acc
  | cons v vs ih =>
    simp only [List.cons_append]
    unfold walkDir
    split
    · rfl
    · split
      · exact ih acc
      · split
        · exact ih acc
        · split
          · exact ih acc
          · rw [scanFile_eq]
            exact ih _

/-- An entry that passes the two tests on its name and opens is scanned; its lines are
appended and the walk goes on. -/
theorem walkDir_cons_of_scanned (fl : Flags) (v : Visit) (vs : List Visit)
    (acc : GoString × GoString) (he : v.err = false) (ho : v.openErr = false)
    (hn : v.name ≠ msgIDFile) (hx : Ext v.name = lit ".proto") :
    walkDir fl (v :: vs) acc =
      walkDir fl vs (acc.1 ++ v.lines.flatMap (fun t => contentOf (scanLine fl t)),
        acc.2 ++ v.lines.flatMap (fun t => tagMapOf (scanLine fl t))) := by
  rw [walkDir]
  simp [he, ho, hn, hx, scanFile_eq]

/-- An entry that fails one of the two tests on its name is passed over. -/
theorem walkDir_cons_of_not_scanned (fl : Flags) (v : Visit) (vs : List Visit)
    (acc : GoString × GoString) (he : v.err = false)
    (h : ¬ (v.name ≠ msgIDFile ∧ Ext v.name = lit ".proto")) :
    walkDir fl (v :: vs) acc = walkDir fl vs acc := by
  rw [walkDir]
  by_cases hn : v.name = msgIDFile
  · simp [he, hn]
  · have hx : Ext v.name ≠ lit ".proto" := fun hx => h ⟨hn, hx⟩
    simp [he, hn, hx]

/-- C15, as stated, fails: the entry `a.proto` passes both tests on its name, and when
`os.Open` fails for it, it is not scanned: its lines are left out of the texts. -/
theorem unopenable_proto_not_scanned :
    lit "a.proto" ≠ msgIDFile ∧ Ext (lit "a.proto") = lit ".proto" ∧
    isScanned { name := lit "a.proto", err := false, openErr := true,
                lines := [lit "message PingReq"] } = false ∧
    walkDir { upper := false, pfx := [] }
        [{ name := lit "a.proto", err := false, openErr := true,
           lines := [lit "message PingReq"] }] ([], [])
      = Walk.done [] [] ∧
    walkDir { upper := false, pfx := [] }
        [{ name := lit "a.proto", err := false, openErr := false,
           lines := [lit "message PingReq"] }] ([], [])
      = Walk.done (lit "    PingReq = 944960739;\n") [] := by
  refine ⟨by decide, by decide, by decide, by decide, by decide⟩

/-- C15, amended: an entry visited without a walk error and that can be opened is
scanned, its lines being appended to the texts, exactly when its name is not
`msgid.proto` and its extension is `.proto`; otherwise the walk passes over it, whatever
its lines. The files `msgid.proto` and `msgtag.go` are never scanned, so a tree that also
holds them gives the same run as the tree without them. -/
theorem scanned_iff_proto_name (fl : Flags) (v : Visit) (vs : List Visit)
    (acc : GoString × GoString) (he : v.err = false) (ho : v.openErr = false) :
    (isScanned v = true ↔ v.name ≠ msgIDFile ∧ Ext v.name = lit ".proto") ∧
    (v.name ≠ msgIDFile ∧ Ext v.name = lit ".proto" →
      walkDir fl (v :: vs) acc =
        walkDir fl vs (acc.1 ++ v.lines.flatMap (fun t => contentOf (scanLine fl t)),
          acc.2 ++ v.lines.flatMap (fun t => tagMapOf (scanLine fl t)))) ∧
    (¬ (v.name ≠ msgIDFile ∧ Ext v.name = lit ".proto") →
      walkDir fl (v :: vs) acc = walkDir fl vs acc) ∧
    (∀ (packageName : GoString) (vs1 vs2 : List Visit) (g : Visit),
      g.err = false → (g.name = msgIDFile ∨ g.name = msgTagFile) →
      main packageName fl (vs1 ++ g :: vs2) = main packageName fl (vs1 ++ vs2)) ∧
    Ext (lit "msgid.proto") = lit ".proto" ∧ Ext (lit "msgtag.go") = lit ".go" ∧
    Ext (lit "a.proto") = lit ".proto" ∧ Ext (lit "a.proto.bak") = lit ".bak" ∧
    Ext (lit "proto") = [] := by
  refine ⟨?_, ?_, ?_, ?_, by decide, by decide, by decide, by decide, by decide⟩
  · simp [isScanned, ho]
  · rintro ⟨hn, hx⟩
    exact walkDir_cons_of_scanned fl v vs acc he ho hn hx
  · intro h
    exact walkDir_cons_of_not_scanned fl v vs acc he h
  · intro packageName vs1 vs2 g hg hname
    have hskip : ∀ a, walkDir fl (g :: vs2) a = walkDir fl vs2 a := by
      intro a
      refine walkDir_cons_of_not_scanned fl g vs2 a hg ?_
      rintro ⟨hn, hx⟩
      rcases hname with hname | hname
      · exact hn hname
      · rw [hname] at hx
        exact absurd hx (by decide)
    unfold main
    rw [walkDir_append_congr fl vs1 (g :: vs2) vs2 hskip]

/-- A witness of C15, amended: `a.proto` is scanned and `notes.txt` is not, and a tree that holds
the generated `msgid.proto`, full of declarations, gives the run of the tree without it. -/
theorem scanned_iff_proto_name_witness :
    walkDir { upper := false, pfx := [] }
        [{ name := lit "a.proto", err := false, openErr := false,
           lines := [lit "message PingReq"] }] ([], [])
      = Walk.done (lit "    PingReq = 944960739;\n") [] ∧
    walkDir { upper := false, pfx := [] }
        [{ name := lit "notes.txt", err := false, openErr := false,
           lines := [lit "message PingReq"] }] ([], [])
      = Walk.done [] [] ∧
    main (lit "pb") { upper := false, pfx := [] }
        ([{ name := lit "a.proto", err := false, openErr := false,
            lines := [lit "message PingReq"] }] ++
          { name := lit "msgid.proto", err := false, openErr := false,
            lines := [lit "message PingReq"] } :: [])
      = main (lit "pb") { upper := false, pfx := [] }
        ([{ name := lit "a.proto", err := false, openErr := false,
            lines := [lit "message PingReq"] }] ++ []) := by
  have h1 := scanned_iff_proto_name { upper := false, pfx := [] }
    { name := lit "a.proto", err := false, openErr := false, lines := [lit "message PingReq"] }
    [] ([], []) rfl rfl
  have h2 := scanned_iff_proto_name { upper := false, pfx := [] }
    { name := lit "notes.txt", err := false, openErr := false,
      lines := [lit "message PingReq"] }
    [] ([], []) rfl rfl
  refine ⟨?_, ?_, ?_⟩
  · rw [h1.2.1 (by decide)]
    decide
  · rw [h2.2.2.1 (by decide)]
    decide
  · exact h1.2.2.2.1 (lit "pb") _ _ _ rfl (Or.inl rfl)

/-! ## The claims on identifiers and normalisation -/

/-- The identifier is zero exactly when the hash leaves the remainder one. -/
theorem hashStringToInt64_eq_zero_iff (str : GoString) :
    hashStringToInt64 str = 0 ↔ sum32 str % maxInt32 = 1 := by
  have hlt : sum32 str % maxInt32 < maxInt32 := Nat.mod_lt _ (by decide)
  unfold hashStringToInt64
  simp only [maxInt32] at *
  constructor
  · intro h
    have h' : (sum32 str % 2147483647 + (2 ^ 32 - 1)) % 2 ^ 32 = 0 :=
      Int.ofNat_eq_zero.1 h
    omega
  · intro h
    rw [h]
    decide

/-- C16, as stated, fails: the qualifying line `message BqmUdsReq` is given the
identifier 0, the value of the sentinel, and both entries are written. -/
theorem declaration_with_identifier_zero :
    sum32 (lit "BqmUdsReq") = 1 ∧
    scanLine { upper := false, pfx := [] } (lit "message BqmUdsReq")
      = Outcome.entry (lit "BqmUdsReq") 0 none ∧
    main (lit "pb") { upper := false, pfx := [] }
        [{ name := lit "a.proto", err := false, openErr := false,
           lines := [lit "message BqmUdsReq"] }]
      = Run.ok { Content := lit "Unknown = 0;\n    BqmUdsReq = 0;\n", Tags := none } := by
  refine ⟨by decide, by decide, by decide⟩

/-- C16, amended: the identifier of a qualifying declaration with emitted name `N` is 0
exactly when the FNV-1 hash of `N` leaves the remainder 1 modulo 2147483647; for every
other name it is not 0. -/
theorem identifier_zero_iff (fl : Flags) (text N : GoString) (I : Int)
    (val : Option GoString) (hq : scanLine fl text = Outcome.entry N I val) :
    (I = 0 ↔ sum32 N % 2147483647 = 1) ∧ (sum32 N % 2147483647 ≠ 1 → I ≠ 0) := by
  obtain ⟨hI, -⟩ := entry_of_scanLine fl text N I val hq
  have h := hashStringToInt64_eq_zero_iff N
  simp only [maxInt32] at h
  rw [hI]
  exact ⟨h, fun hne h0 => hne (h.1 h0)⟩

/-- A witness of C16, amended: the line `message PingReq` has the identifier 944960739,
which is not 0, the hash of `PingReq` leaving another remainder than 1. -/
theorem identifier_zero_iff_witness :
    sum32 (lit "PingReq") % 2147483647 ≠ 1 ∧ hashStringToInt64 (lit "PingReq") ≠ 0 :=
  ⟨by decide,
    (identifier_zero_iff { upper := false, pfx := [] } (lit "message PingReq")
      (lit "PingReq") (hashStringToInt64 (lit "PingReq")) none (by decide)).2 (by decide)⟩

/-- C17: no line makes the scan index out of range. A line with at least two tokens has
a first and a second token; `tagStr`, when not empty, is a token beginning with `tag:`;
such a token is cut at its colons into at least two pieces, so the index 1 is in range;
and no run ends in a panic. -/
theorem scan_never_indexes_out_of_range (fl : Flags) (text : GoString) :
    scanLine fl text ≠ Outcome.panic ∧
    (¬ ((Split 32 text).length < 2) →
      ∃ head body, (Split 32 text)[0]? = some head ∧ (Split 32 text)[1]? = some body) ∧
    (findTagStr (Split 32 text) ≠ [] → lit "tag:" <+: findTagStr (Split 32 text)) ∧
    (∀ s : GoString, lit "tag:" <+: s →
      2 ≤ (Split 58 s).length ∧ ∃ val, (Split 58 s)[1]? = some val) ∧
    (∀ (acc : GoString × GoString), scanStep fl acc text ≠ none) ∧
    (∀ (packageName : GoString) (vs : List Visit), main packageName fl vs ≠ Run.panic) := by
  refine ⟨scanLine_ne_panic fl text, ?_, ?_, ?_, ?_, ?_⟩
  · intro hlen
    cases hs : Split 32 text with
    | nil => simp [hs] at hlen
    | cons head rest =>
      cases rest with
      | nil => simp [hs] at hlen
      | cons body toks => exact ⟨head, body, by simp, by simp⟩
  · intro hne
    rcases findTagStr_nil_or_tag (Split 32 text) with h | h
    · exact absurd h hne
    · exact (tag_iff _).1 h
  · intro s hs
    obtain ⟨val, hval⟩ := Split_colon_index_of_tag s ((tag_iff s).2 hs)
    refine ⟨?_, val, hval⟩
    by_contra hlt
    have : (Split 58 s)[1]? = none := by
      rw [List.getElem?_eq_none_iff]
      omega
    rw [this] at hval
    cases hval
  · intro acc
    rw [scanStep_eq]
    simp
  · intro packageName vs
    unfold main
    split
    · simp
    · have hw := walkDir_ne_panic fl vs ([], [])
      split
      · simp
      · contradiction
      · simp

/-- C18: the identifier is never negative; it is below `2 ^ 32`. -/
theorem hashStringToInt64_nonneg (str : GoString) :
    0 ≤ hashStringToInt64 str ∧ hashStringToInt64 str < 2 ^ 32 := by
  unfold hashStringToInt64
  have h : (sum32 str % maxInt32 + (2 ^ 32 - 1)) % 2 ^ 32 < 2 ^ 32 :=
    Nat.mod_lt _ (by decide)
  constructor
  · exact Int.ofNat_nonneg _
  · have : ((2 : Int) ^ 32) = ((2 ^ 32 : Nat) : Int) := by norm_num
    rw [this]
    exact Int.ofNat_lt.2 h

/-- A witness of C17: the line `message PingReq tag:net` does not panic, it has a first
and a second token, and its tag token `tag:net` is cut into two pieces. -/
theorem scan_never_indexes_out_of_range_witness :
    scanLine { upper := false, pfx := [] } (lit "message PingReq tag:net") ≠ Outcome.panic ∧
    (∃ head body, (Split 32 (lit "message PingReq tag:net"))[0]? = some head ∧
      (Split 32 (lit "message PingReq tag:net"))[1]? = some body) ∧
    (2 ≤ (Split 58 (lit "tag:net")).length ∧ ∃ val, (Split 58 (lit "tag:net"))[1]? = some val) :=
  ⟨(scan_never_indexes_out_of_range { upper := false, pfx := [] }
      (lit "message PingReq tag:net")).1,
    (scan_never_indexes_out_of_range { upper := false, pfx := [] }
      (lit "message PingReq tag:net")).2.1 (by decide),
    (scan_never_indexes_out_of_range { upper := false, pfx := [] }
      (lit "message PingReq tag:net")).2.2.2.1 (lit "tag:net") (by decide)⟩

theorem isWordByte_toUpperByte (c : Nat) (h : isWordByte c = true) :
    isWordByte (toUpperByte c) = true := by
  simp only [isWordByte, toUpperByte, Bool.or_eq_true, Bool.and_eq_true, decide_eq_true_eq,
    beq_iff_eq] at h ⊢
  split <;> omega

theorem toUpperByte_toUpperByte (c : Nat) : toUpperByte (toUpperByte c) = toUpperByte c := by
  by_cases h : 97 ≤ c ∧ c ≤ 122
  · have h2 : ¬ (97 ≤ c - 32 ∧ c - 32 ≤ 122) := by omega
    simp only [toUpperByte, h, and_self, if_true, h2, if_false]
  · simp [toUpperByte, h]

/-- An upper-cased word byte is an uppercase letter, a digit or an underscore. -/
theorem toUpperByte_upper_class (c : Nat) (h : isWordByte c = true) :
    (48 ≤ toUpperByte c ∧ toUpperByte c ≤ 57) ∨ (65 ≤ toUpperByte c ∧ toUpperByte c ≤ 90)
      ∨ toUpperByte c = 95 := by
  simp only [isWordByte, Bool.or_eq_true, Bool.and_eq_true, decide_eq_true_eq,
    beq_iff_eq] at h
  simp only [toUpperByte]
  split <;> omega

/-- C19: the normalisation is idempotent under either uppercase setting, every byte of
its output is in `[A-Za-z0-9_]`, and with the uppercase option on every byte of its
output is in `[A-Z0-9_]`. -/
theorem extractWordsAndToUpper_idempotent (upper : Bool) (s : GoString) :
    extractWordsAndToUpper upper (extractWordsAndToUpper upper s)
      = extractWordsAndToUpper upper s ∧
    (∀ c ∈ extractWordsAndToUpper upper s,
      (48 ≤ c ∧ c ≤ 57) ∨ (65 ≤ c ∧ c ≤ 90) ∨ c = 95 ∨ (97 ≤ c ∧ c ≤ 122)) ∧
    (∀ c ∈ extractWordsAndToUpper true s,
      (48 ≤ c ∧ c ≤ 57) ∨ (65 ≤ c ∧ c ≤ 90) ∨ c = 95) := by
  have hword : ∀ c ∈ extractWordsAndToUpper upper s, isWordByte c = true := by
    intro c hc
    rw [extractWordsAndToUpper_eq] at hc
    obtain ⟨d, hd, rfl⟩ := List.mem_map.1 hc
    have hd' : isWordByte d = true := (List.mem_filter.1 hd).2
    cases upper
    · simpa using hd'
    · simpa using isWordByte_toUpperByte d hd'
  refine ⟨?_, ?_, ?_⟩
  · rw [extractWordsAndToUpper_eq upper (extractWordsAndToUpper upper s)]
    rw [List.filter_eq_self.2 hword]
    rw [extractWordsAndToUpper_eq]
    rw [List.map_map]
    apply List.map_congr_left
    intro c _
    cases upper
    · simp
    · simp [toUpperByte_toUpperByte]
  · intro c hc
    have h := hword c hc
    simp only [isWordByte, Bool.or_eq_true, Bool.and_eq_true, decide_eq_true_eq,
      beq_iff_eq] at h
    omega
  · intro c hc
    rw [extractWordsAndToUpper_eq] at hc
    obtain ⟨d, hd, rfl⟩ := List.mem_map.1 hc
    have hd' : isWordByte d = true := (List.mem_filter.1 hd).2
    simpa using toUpperByte_upper_class d hd'

/-- A witness of C19: the normalisation of ` p-foo_Req9 ` with the uppercase option on is
`PFOO_REQ9`, which the normalisation leaves as it is, and its first byte `P` is an
uppercase letter. -/
theorem extractWordsAndToUpper_idempotent_witness :
    extractWordsAndToUpper true (lit " p-foo_Req9 ") = lit "PFOO_REQ9" ∧
    extractWordsAndToUpper true (extractWordsAndToUpper true (lit " p-foo_Req9 "))
      = extractWordsAndToUpper true (lit " p-foo_Req9 ") ∧
    ((48 ≤ 80 ∧ 80 ≤ 57) ∨ (65 ≤ 80 ∧ 80 ≤ 90) ∨ 80 = 95) :=
  ⟨by decide,
    (extractWordsAndToUpper_idempotent true (lit " p-foo_Req9 ")).1,
    (extractWordsAndToUpper_idempotent true (lit " p-foo_Req9 ")).2.2 80 (by decide)⟩

end Msgidgen
